import Mathlib

/-
  Verification of the reactive-notebook backend (src/backend of the
  repository) against its specification.

  The development shallowly embeds the Python modules `dependency.py`,
  `reactive.py` and `kernel.py`.  Python sets of strings are represented by
  lists (membership is what the verified claims are about), Python dicts by
  association-list lookups or by functions `String → Option _`, and machine
  iteration (`while` loops, recursive DFS) by fuel-indexed structural
  recursion with enough fuel, proved sufficient where a claim needs it.

  The language-specific source parser (`ast.parse`) is an external
  collaborator of the core (spec §1); the embedding is parameterised by a
  parser `String → Option (List PyStmt)` producing the abstract syntax that
  `dependency.py` walks.  `dir(builtins)` is likewise a parameter.
-/

namespace ReactiveNotebook

/-- Expression contexts of the Python `ast` module: `ast.Load`, `ast.Store`,
`ast.Del`. -/
inductive Ctx where
  | load
  | store
  | del
deriving DecidableEq, Repr

/-- Python expressions, restricted to the node shapes `dependency.py`
inspects.  `_extract_names` looks at `ast.Name`, `ast.Tuple`, `ast.List`
and `ast.Starred`; `get_used_vars` looks at `ast.Name` nodes anywhere.
Every other expression kind (`BinOp`, `Call`, `Constant`, …) only
contributes its child expressions to `ast.walk`, which `compound`
represents generically. -/
inductive PyExpr where
  | name (id : String) (ctx : Ctx)
  | tuple (elts : List PyExpr) (ctx : Ctx)
  | listE (elts : List PyExpr) (ctx : Ctx)
  | starred (value : PyExpr) (ctx : Ctx)
  | compound (children : List PyExpr)

/-- Python statements, restricted to the node shapes `get_defined_vars`
matches on.  Import aliases are `(name, asname?)` pairs as in
`ast.alias`.  `otherStmt` stands for any other statement kind (`While`,
`If`, `Try`, …): `ast.walk` still visits its child expressions and child
statements. -/
inductive PyStmt where
  | assign (targets : List PyExpr) (value : PyExpr)
  | augAssign (target : PyExpr) (value : PyExpr)
  | annAssign (target : PyExpr) (value : Option PyExpr)
  | functionDef (nm : String) (body : List PyStmt)
  | asyncFunctionDef (nm : String) (body : List PyStmt)
  | classDef (nm : String) (body : List PyStmt)
  | forLoop (target : PyExpr) (iter : PyExpr) (body : List PyStmt)
  | withStmt (items : List (PyExpr × Option PyExpr)) (body : List PyStmt)
  | importStmt (als : List (String × Option String))
  | importFrom (als : List (String × Option String))
  | exprStmt (value : PyExpr)
  | otherStmt (exprs : List PyExpr) (body : List PyStmt)

mutual

/-- `DependencyAnalyzer._extract_names` (dependency.py:91-104): variable
names of an assignment target, recursing through tuple/list destructuring
and starred targets. -/
def extract_names : PyExpr → List String
  | .name id _ => [id]
  | .tuple elts _ => extract_names_list elts
  | .listE elts _ => extract_names_list elts
  | .starred v _ => extract_names v
  | .compound _ => []

/-- Pointwise extension of `extract_names` to a list of targets. -/
def extract_names_list : List PyExpr → List String
  | [] => []
  | e :: es => extract_names e ++ extract_names_list es

end

mutual

/-- All `ast.Name` nodes (identifier and context) reachable inside one
expression, as visited by `ast.walk`. -/
def expr_names : PyExpr → List (String × Ctx)
  | .name id c => [(id, c)]
  | .tuple elts _ => expr_names_list elts
  | .listE elts _ => expr_names_list elts
  | .starred v _ => expr_names v
  | .compound children => expr_names_list children

/-- Pointwise extension of `expr_names` to a list of expressions. -/
def expr_names_list : List PyExpr → List (String × Ctx)
  | [] => []
  | e :: es => expr_names e ++ expr_names_list es

end

/-- Name of one `ast.alias` of a plain `import` (dependency.py:76-79):
the alias if present, else the first dotted segment. -/
def import_name (a : String × Option String) : String :=
  match a.2 with
  | some asname => asname
  | none => ((a.1.splitOn ".").headD a.1)

/-- Name of one `ast.alias` of a `from … import …` (dependency.py:82-86):
the alias if present, else the bare name. -/
def from_import_name (a : String × Option String) : String :=
  match a.2 with
  | some asname => asname
  | none => a.1

/-- Names bound by the `as` parts of a `with` statement
(dependency.py:69-73). -/
def with_items_names : List (PyExpr × Option PyExpr) → List String
  | [] => []
  | (_, some v) :: rest => extract_names v ++ with_items_names rest
  | (_, none) :: rest => with_items_names rest

mutual

/-- The names one statement node (and, through `ast.walk`, its nested
statements) contributes to the defined set (dependency.py:38-86). -/
def stmt_defined : PyStmt → List String
  | .assign targets _ => extract_names_list targets
  | .augAssign target _ => extract_names target
  | .annAssign target _ => extract_names target
  | .functionDef nm body => nm :: stmts_defined body
  | .asyncFunctionDef nm body => nm :: stmts_defined body
  | .classDef nm body => nm :: stmts_defined body
  | .forLoop target _ body => extract_names target ++ stmts_defined body
  | .withStmt items body => with_items_names items ++ stmts_defined body
  | .importStmt als => als.map import_name
  | .importFrom als => (als.map from_import_name).filter (fun n => n ≠ "*")
  | .exprStmt _ => []
  | .otherStmt _ body => stmts_defined body

/-- Defined-name contributions of a statement list. -/
def stmts_defined : List PyStmt → List String
  | [] => []
  | s :: rest => stmt_defined s ++ stmts_defined rest

end

/-- All `ast.Name` nodes inside the expressions of `with` items. -/
def with_items_all_names : List (PyExpr × Option PyExpr) → List (String × Ctx)
  | [] => []
  | (cm, some v) :: rest => expr_names cm ++ expr_names v ++ with_items_all_names rest
  | (cm, none) :: rest => expr_names cm ++ with_items_all_names rest

mutual

/-- All `ast.Name` nodes reachable from one statement by `ast.walk`
(dependency.py:121-122 iterates them to build the used set). -/
def stmt_names : PyStmt → List (String × Ctx)
  | .assign targets value => expr_names_list targets ++ expr_names value
  | .augAssign target value => expr_names target ++ expr_names value
  | .annAssign target value =>
      expr_names target ++ (match value with | some v => expr_names v | none => [])
  | .functionDef _ body => stmts_names body
  | .asyncFunctionDef _ body => stmts_names body
  | .classDef _ body => stmts_names body
  | .forLoop target iter body => expr_names target ++ expr_names iter ++ stmts_names body
  | .withStmt items body => with_items_all_names items ++ stmts_names body
  | .importStmt _ => []
  | .importFrom _ => []
  | .exprStmt value => expr_names value
  | .otherStmt exprs body => expr_names_list exprs ++ stmts_names body

/-- `ast.Name` nodes of a statement list. -/
def stmts_names : List PyStmt → List (String × Ctx)
  | [] => []
  | s :: rest => stmt_names s ++ stmts_names rest

end

/-- The test `name.startswith('_')` (dependency.py:89, 125), expressed on
the string's character list (a name begins with an underscore iff its
first character is `_`). -/
def startsWithUnderscore (v : String) : Bool := v.data.head? == some '_'

/-- The static analyzer of `dependency.py`, parameterised by the external
parser (`ast.parse`, returning `none` on `SyntaxError`) and by the
built-in name set `BUILTINS = set(dir(builtins))` (dependency.py:8). -/
structure Analyzer where
  parse : String → Option (List PyStmt)
  builtins : List String

/-- `DependencyAnalyzer.get_defined_vars` (dependency.py:14-89): names
defined by the code; on a parse failure the empty set; names starting
with `_` are filtered out at the end (dependency.py:89). -/
def Analyzer.get_defined_vars (A : Analyzer) (code : String) : List String :=
  match A.parse code with
  | none => []
  | some tree => (stmts_defined tree).filter (fun v => !startsWithUnderscore v)

/-- `DependencyAnalyzer.get_used_vars` (dependency.py:106-128): names of
`ast.Name` nodes in `Load` context, skipping built-ins and names starting
with `_`; on a parse failure the empty set. -/
def Analyzer.get_used_vars (A : Analyzer) (code : String) : List String :=
  match A.parse code with
  | none => []
  | some tree =>
      ((stmts_names tree).filter (fun p =>
        decide (p.2 = Ctx.load ∧ p.1 ∉ A.builtins) && !startsWithUnderscore p.1)).map Prod.fst

/-- `DependencyAnalyzer.get_dependencies` (dependency.py:130-141). -/
def Analyzer.get_dependencies (A : Analyzer) (code : String) : List String × List String :=
  (A.get_defined_vars code, A.get_used_vars code)

/-- The ordered cell list `[(cell_id, code), …]` that the analyzer's
graph functions consume. -/
abbrev Cells := List (String × String)

/-- The variable → defining-cell map of `build_dependency_graph`
(dependency.py:168-176).  Inserting only absent keys while scanning cells
in display order means: the first cell in display order whose defined set
contains the variable wins. -/
def Analyzer.var_to_cell (A : Analyzer) (cells : Cells) (v : String) : Option String :=
  (cells.find? (fun c => decide (v ∈ A.get_defined_vars c.2))).map Prod.fst

/-- `DependencyAnalyzer.build_dependency_graph` (dependency.py:143-192),
as the map from a cell id to the set of cell ids it depends on: for each
used variable the defining cell, if any and if different from the cell
itself.  Ids not in `cells` are unmapped (empty set).  The final `dedup`
renders the Python value's set semantics as a duplicate-free list. -/
def Analyzer.build_dependency_graph (A : Analyzer) (cells : Cells) (d : String) : List String :=
  match cells.find? (fun c => c.1 == d) with
  | none => []
  | some c =>
      ((A.get_used_vars c.2).filterMap (fun v =>
        match A.var_to_cell cells v with
        | some dc => if dc ≠ d then some dc else none
        | none => none)).dedup

/-- The reverse graph of `find_downstream_cells` (dependency.py:215-220):
for a cell id, the cells that directly depend on it; empty for ids that
are not cells. -/
def Analyzer.reverse_graph (A : Analyzer) (cells : Cells) (dep : String) : List String :=
  if dep ∈ cells.map Prod.fst then
    (cells.map Prod.fst).filter (fun cid => decide (dep ∈ A.build_dependency_graph cells cid))
  else []

/-- The breadth-first traversal of `find_downstream_cells`
(dependency.py:222-230): pop the queue head, add it to `downstream` if
new and enqueue its reverse-neighbours.  The Python `while queue:` loop
is rendered with a fuel argument; `find_downstream_cells` passes fuel
exceeding the loop's iteration count (see `bfs_downstream_spec`). -/
def bfs_downstream (rev : String → List String) : Nat → List String → List String → List String
  | 0, _, downstream => downstream
  | _ + 1, [], downstream => downstream
  | fuel + 1, current :: rest, downstream =>
      if current ∈ downstream then bfs_downstream rev fuel rest downstream
      else bfs_downstream rev fuel (rest ++ rev current) (downstream ++ [current])

/-- `DependencyAnalyzer.find_downstream_cells` (dependency.py:194-232). -/
def Analyzer.find_downstream_cells (A : Analyzer) (cell_id : String) (cells : Cells) : List String :=
  bfs_downstream (A.reverse_graph cells)
    ((cells.length + 1) * (cells.length + 1)) (A.reverse_graph cells cell_id) []

/-- The queue ordering of `topological_sort` (dependency.py:274-275, 289):
`queue.sort(key=…display index…)`, a stable sort on the display index. -/
def sort_by_display (key : String → Nat) (l : List String) : List String :=
  l.mergeSort (fun a b => decide (key a ≤ key b))

/-- The inner loop of `topological_sort` (dependency.py:283-289): after
emitting `current`, scan `cell_ids`, decrement the in-degree of every cell
that depends on `current`, and enqueue (then re-sort) each cell whose
in-degree hits zero. -/
def kahn_relax (dsub : String → List String) (key : String → Nat) (current : String) :
    List String → (String → Int) × List String → (String → Int) × List String
  | [], st => st
  | cid :: rest, st =>
      kahn_relax dsub key current rest
        (if current ∈ dsub cid then
          let d := st.1 cid - 1
          let ind : String → Int := fun k => if k = cid then d else st.1 k
          if d = 0 then (ind, sort_by_display key (st.2 ++ [cid])) else (ind, st.2)
        else st)

/-- The `while queue:` loop of `topological_sort` (dependency.py:277-291),
rendered with fuel.  Each iteration pops the queue head, appends it to the
result and relaxes the in-degrees; `topological_sort` passes fuel
exceeding the iteration count (one cell is emitted per iteration). -/
def kahn_loop (dsub : String → List String) (key : String → Nat) (cell_ids : List String) :
    Nat → (String → Int) → List String → List String → List String
  | 0, _, _, result => result
  | _ + 1, _, [], result => result
  | fuel + 1, in_degree, current :: rest, result =>
      let st := kahn_relax dsub key current cell_ids (in_degree, rest)
      kahn_loop dsub key cell_ids fuel st.1 st.2 (result ++ [current])

/-- `DependencyAnalyzer.topological_sort` (dependency.py:234-291): Kahn's
algorithm over the dependency graph restricted to `cell_ids`, the ready
queue kept sorted by display index (index in `cells`; ids outside the
display order sort last, standing in for the code's `float('inf')`). -/
def Analyzer.topological_sort (A : Analyzer) (cell_ids : List String) (cells : Cells) :
    List String :=
  if cell_ids.isEmpty then []
  else
    let cell_order := cells.map Prod.fst
    let key : String → Nat := fun x =>
      if x ∈ cell_order then cell_order.indexOf x else cell_order.length
    let dsub : String → List String := fun cid =>
      if cid ∈ cell_ids then
        (A.build_dependency_graph cells cid).filter (fun x => decide (x ∈ cell_ids))
      else []
    let in_degree : String → Int := fun cid => ((dsub cid).length : Int)
    let queue := sort_by_display key
      (cell_ids.filter (fun cid => decide (in_degree cid = 0)))
    kahn_loop dsub key cell_ids (cell_ids.length + 1) in_degree queue []

/-- The three colours of the depth-first cycle search
(dependency.py:304). -/
inductive Color where
  | white
  | gray
  | black
deriving DecidableEq, Repr

/-- One `dfs(node, path)` call of the cycle search (dependency.py:307-324
and spec §4.2 step 5): mark the node gray, push it on the path, scan its
dependencies — a gray dependency closes a cycle, whose trace is the path
from the first occurrence of that dependency with the dependency
appended; a white dependency is visited recursively; once a cycle is
found the remaining dependencies are skipped — and on success mark the
node black.  The scan over the dependencies is a fold threading the
found-cycle/colour state; fuel only bounds the recursion depth and
callers pass more fuel than there are nodes. -/
def dfs_visit (g : String → List String) :
    Nat → String → (String → Color) → List String →
    Option (List String) × (String → Color)
  | 0, _, color, _ => (none, color)
  | fuel + 1, node, color, path =>
      let color1 : String → Color := fun k => if k = node then Color.gray else color k
      let path1 := path ++ [node]
      let scan := (g node).foldl
        (fun (acc : Option (List String) × (String → Color)) dep =>
          match acc.1 with
          | some cyc => (some cyc, acc.2)
          | none =>
              match acc.2 dep with
              | Color.gray => (some ((path1.drop (path1.indexOf dep)) ++ [dep]), acc.2)
              | Color.white => dfs_visit g fuel dep acc.2 path1
              | Color.black => (none, acc.2)) (none, color1)
      match scan with
      | (some cyc, c2) => (some cyc, c2)
      | (none, c2) => (none, fun k => if k = node then Color.black else c2 k)

/-- The outer loop of the cycle search (dependency.py:326-330): start a
depth-first search from every still-white cell, returning the first cycle
found. -/
def find_cycle_loop (g : String → List String) (fuel : Nat) :
    List String → (String → Color) → Option (List String)
  | [], _ => none
  | cid :: rest, color =>
      match color cid with
      | Color.white =>
          match dfs_visit g fuel cid color [] with
          | (some cyc, _) => some cyc
          | (none, c2) => find_cycle_loop g fuel rest c2
      | _ => find_cycle_loop g fuel rest color

/-- Modelled from the spec: `DependencyAnalyzer.find_cycle`, which
`ReactiveEngine.on_cell_changed` (reactive.py:157) calls but which is
absent from the source (`has_cycle`, dependency.py:293-332, runs the same
three-colour depth-first search but renders the trace itself).  Spec §4.2
step 5: the search yields "the cycle trace from the first occurrence of
that node in the current path through the current node and back to it",
as a list of cell ids for `_format_cycle_error` to render. -/
def Analyzer.find_cycle (A : Analyzer) (cells : Cells) : Option (List String) :=
  find_cycle_loop (A.build_dependency_graph cells) (cells.length + 1)
    (cells.map Prod.fst) (fun _ => Color.white)

/-- The cells of a given variable with the variable's definers, in display
order. -/
def duplicate_definers (A : Analyzer) (cells : Cells) (v : String) : List String :=
  (cells.filter (fun c => decide (v ∈ A.get_defined_vars c.2))).map Prod.fst

/-- Modelled from the spec: `DependencyAnalyzer.find_duplicate_definitions`,
which `ReactiveEngine.on_cell_changed` (reactive.py:149) calls but which is
absent from the source.  Spec §4.2 step 2: "Build a symbol → [cell ids]
index over all defined sets.  Any symbol with ≥2 definers triggers the
duplicate-definition error listing every offending cell". -/
def Analyzer.find_duplicate_definitions (A : Analyzer) (cells : Cells) :
    List (String × List String) :=
  (((cells.map (fun c => A.get_defined_vars c.2)).flatten.dedup).map
    (fun v => (v, duplicate_definers A cells v))).filter (fun p => decide (2 ≤ p.2.length))

/-- `CellData` (reactive.py:10-17). -/
structure CellData where
  id : String
  code : String
  output : String
  error : String
  status : String
deriving DecidableEq, Repr

/-- The state a `ReactiveEngine` (reactive.py:20-40) owns: the cell map
and the display order.  The kernel handle is external (a worker process)
and plays no part in the claims about `on_cell_changed`. -/
structure EngineState where
  cells : String → Option CellData
  cell_order : List String

/-- `ReactiveEngine.add_cell` (reactive.py:42-70) with an explicit id;
the generated-uuid branch of the source is modelled by the caller
supplying the fresh id.  New cells get code as given and the dataclass
defaults `output=""`, `error=""`, `status="idle"`. -/
def EngineState.add_cell (s : EngineState) (cell_id : String) (code : String)
    (position : Option Nat) : EngineState :=
  let cell : CellData := ⟨cell_id, code, "", "", "idle"⟩
  let cells : String → Option CellData := fun k => if k = cell_id then some cell else s.cells k
  match position with
  | some p =>
      if p ≤ s.cell_order.length then ⟨cells, s.cell_order.insertIdx p cell_id⟩
      else ⟨cells, s.cell_order ++ [cell_id]⟩
  | none => ⟨cells, s.cell_order ++ [cell_id]⟩

/-- `ReactiveEngine.delete_cell` (reactive.py:72-87): remove the cell from
the map and its first occurrence from the order; report whether it
existed. -/
def EngineState.delete_cell (s : EngineState) (cell_id : String) : EngineState × Bool :=
  match s.cells cell_id with
  | none => (s, false)
  | some _ =>
      (⟨fun k => if k = cell_id then none else s.cells k, s.cell_order.erase cell_id⟩, true)

/-- `ReactiveEngine._get_cells_as_tuples` (reactive.py:93-95). -/
def EngineState.get_cells_as_tuples (s : EngineState) : Cells :=
  s.cell_order.filterMap (fun cid => (s.cells cid).map (fun cd => (cid, cd.code)))

/-- The cell-number rendering of `_format_duplicate_error` and
`_format_cycle_error` (reactive.py:100-108, 115-122): 1-indexed display
position, falling back to the raw id. -/
def cell_position_label (s : EngineState) (cid : String) : String :=
  if cid ∈ s.cell_order then "cell " ++ toString (s.cell_order.indexOf cid + 1) else cid

/-- One line of `_format_duplicate_error` (reactive.py:110). -/
def format_duplicate_line (s : EngineState) (v : String) (cids : List String) : String :=
  "Variable \x27" ++ v ++ "\x27 is defined in multiple cells: " ++
    String.intercalate ", " (cids.map (cell_position_label s))

/-- `ReactiveEngine._format_duplicate_error` (reactive.py:97-111). -/
def format_duplicate_error (s : EngineState) (dups : List (String × List String)) : String :=
  "Each variable must be defined in exactly one cell.\n" ++
    String.intercalate "\n" (dups.map (fun p => format_duplicate_line s p.1 p.2))

/-- `ReactiveEngine._format_cycle_error` (reactive.py:113-123).  The
separator in the source is the literal byte sequence `"â†’"`
(the UTF-8 bytes of "→" read as individual characters), not the arrow
"→" the spec prescribes; the embedding reproduces the source
exactly. -/
def format_cycle_error (s : EngineState) (cycle : List String) : String :=
  "Circular dependency detected: " ++
    String.intercalate " â†’ " (cycle.map (cell_position_label s))

/-- The two outcomes of `on_cell_changed` (reactive.py:133-136). -/
inductive ChangeResult where
  | err (msg : String)
  | plan (order : List String)
deriving DecidableEq, Repr

/-- The first step of `on_cell_changed` (reactive.py:139-143): create the
cell if absent, else overwrite its code. -/
def EngineState.update_cell_code (s : EngineState) (cell_id new_code : String) : EngineState :=
  match s.cells cell_id with
  | none => s.add_cell cell_id new_code none
  | some cd =>
      ⟨fun k => if k = cell_id then some ⟨cd.id, new_code, cd.output, cd.error, cd.status⟩
        else s.cells k, s.cell_order⟩

/-- The error stamping of `on_cell_changed` (reactive.py:152-153,
160-161): `status = "error"`, `error = msg` on the edited cell. -/
def EngineState.stamp_error (s : EngineState) (cell_id msg : String) : EngineState :=
  match s.cells cell_id with
  | none => s
  | some cd =>
      ⟨fun k => if k = cell_id then some ⟨cd.id, cd.code, cd.output, msg, "error"⟩
        else s.cells k, s.cell_order⟩

/-- `ReactiveEngine.on_cell_changed` (reactive.py:125-173): update the
code, check duplicates, check cycles (stamping the edited cell and
returning the error in either case), else plan: topologically sort the
edited cell together with its transitive dependents. -/
def EngineState.on_cell_changed (A : Analyzer) (s : EngineState) (cell_id new_code : String) :
    EngineState × ChangeResult :=
  let s1 := s.update_cell_code cell_id new_code
  let tuples := s1.get_cells_as_tuples
  match A.find_duplicate_definitions tuples with
  | [] =>
      match A.find_cycle tuples with
      | some cyc =>
          let msg := format_cycle_error s1 cyc
          (s1.stamp_error cell_id msg, ChangeResult.err msg)
      | none =>
          let downstream := A.find_downstream_cells cell_id tuples
          let dirty := cell_id :: downstream
          (s1, ChangeResult.plan (A.topological_sort dirty tuples))
  | d :: ds =>
      let msg := format_duplicate_error s1 (d :: ds)
      (s1.stamp_error cell_id msg, ChangeResult.err msg)

/-- What happens inside the worker's `with redirect_stdout…` block
(kernel.py:191-204): either the statements (and trailing expression, if
any) finish — with captured stdout, captured stderr and the `repr` of the
trailing expression's non-`None` value — or an exception escapes, with
the stdout captured up to that point and the exception's type name and
message.  The Python interpreter itself is external; `execute_code` is
parameterised by this outcome. -/
inductive RunOutcome where
  | finished (stdout : String) (stderr : String) (result_repr : Option String)
  | raised (stdout_so_far : String) (exc_type : String) (exc_msg : String)
deriving DecidableEq, Repr

/-- The result dictionary of `_execute_code` (kernel.py:168-231), without
the `result_value` entry the worker strips (kernel.py:264). -/
structure ExecResult where
  status : String
  output : String
  error : String
deriving DecidableEq, Repr

/-- `_execute_code` (kernel.py:168-231): a parse failure reports a
`SyntaxError` without executing; a finished run joins the right-stripped
stdout (if non-empty) and the trailing expression's repr (if any) with a
newline; an uncaught exception yields status `error`, the stdout captured
so far, and `"<ExceptionType>: <message>"`. -/
def execute_code (parse : String → Except (String × Nat) (List PyStmt))
    (run : List PyStmt → RunOutcome) (code : String) : ExecResult :=
  match parse code with
  | Except.error e =>
      ⟨"error", "", "SyntaxError: " ++ e.1 ++ " (line " ++ toString e.2 ++ ")"⟩
  | Except.ok tree =>
      match run tree with
      | RunOutcome.finished stdout stderr result_repr =>
          let parts := (if stdout ≠ "" then [stdout.trimRight] else []) ++
            (match result_repr with | some r => [r] | none => [])
          ⟨"success", String.intercalate "\n" parts, stderr⟩
      | RunOutcome.raised out ty msg =>
          ⟨"error", out, ty ++ ": " ++ msg⟩

/-- A directed cycle in a dependency map `g`: a finite sequence that
returns to its start and follows an edge `σ (k+1) ∈ g (σ k)` at every
step. -/
def HasCycle (g : String → List String) : Prop :=
  ∃ (n : Nat) (σ : Nat → String), 0 < n ∧ σ n = σ 0 ∧ ∀ k, k < n → σ (k + 1) ∈ g (σ k)

/-- Acyclicity of a dependency map: no directed cycle. -/
def Acyclic (g : String → List String) : Prop := ¬ HasCycle g

/-- One reverse-dependency step of the graph over `cells`: `v` directly
depends on `u`. -/
def RevStep (A : Analyzer) (cells : Cells) (u v : String) : Prop :=
  v ∈ A.reverse_graph cells u

/-- A concrete parser fixing the external `ast.parse` parameter on the
code fragments the concrete instances below use. -/
def demo_parse : String → Option (List PyStmt) := fun code =>
  if code = "a = b" then some [.assign [.name "a" .store] (.name "b" .load)]
  else if code = "b = a" then some [.assign [.name "b" .store] (.name "a" .load)]
  else if code = "x = 10" then some [.assign [.name "x" .store] (.compound [])]
  else if code = "x = 20" then some [.assign [.name "x" .store] (.compound [])]
  else if code = "y = x" then some [.assign [.name "y" .store] (.name "x" .load)]
  else none

/-- A concrete analyzer instance. -/
def demo_analyzer : Analyzer := ⟨demo_parse, ["print", "len"]⟩

/-- A concrete two-cell collection: `c1` defines `x`, `c2` reads it. -/
def demo_cells : Cells := [("c1", "x = 10"), ("c2", "y = x")]

/-- A concrete two-cell collection with a dependency cycle between the
variables `a` and `b`. -/
def cyc_cells : Cells := [("c1", "a = b"), ("c2", "b = a")]

/-- Engine state holding `cyc_cells`. -/
def cyc_state : EngineState :=
  ⟨fun k => if k = "c1" then some ⟨"c1", "a = b", "", "", "idle"⟩
    else if k = "c2" then some ⟨"c2", "b = a", "", "", "idle"⟩ else none,
   ["c1", "c2"]⟩

/-- A concrete two-cell collection with no dependencies at all (both
cells only assign constants). -/
def indep_cells : Cells := [("c1", "x = 10"), ("c2", "x = 20")]

/-- Engine state in which editing `c2` to `x = 20` makes `x` doubly
defined. -/
def dup_state : EngineState :=
  ⟨fun k => if k = "c1" then some ⟨"c1", "x = 10", "", "", "idle"⟩
    else if k = "c2" then some ⟨"c2", "y = x", "", "", "idle"⟩ else none,
   ["c1", "c2"]⟩

/-- The duplicate-definition message `dup_state` produces on that edit. -/
def dup_message : String :=
  "Each variable must be defined in exactly one cell.\nVariable \x27x\x27 is defined in multiple cells: cell 1, cell 2"

/-- Engine state with a single cell `a`, for the add/delete round-trip
counterexample. -/
def single_state : EngineState :=
  ⟨fun k => if k = "a" then some ⟨"a", "x = 10", "", "", "idle"⟩ else none, ["a"]⟩

/-- An analyzer whose parser rejects everything. -/
def none_parse_analyzer : Analyzer := ⟨fun _ => none, []⟩

/-- A concrete kernel-side parser fixing the `ast.parse` parameter of
`_execute_code`. -/
def demo_kernel_parse : String → Except (String × Nat) (List PyStmt) := fun code =>
  if code = "boom" then Except.ok [.exprStmt (.compound [])]
  else Except.error ("invalid syntax", 1)

/-- A concrete run outcome: the cell raises `ValueError` after printing. -/
def demo_kernel_run : List PyStmt → RunOutcome := fun _ =>
  RunOutcome.raised "partial output\n" "ValueError" "bad value"

/-- C7: for every source string that fails to parse, the symbol extractor
returns the empty set both for defined symbols (`get_defined_vars`) and
for used symbols (`get_used_vars`), so a syntactically broken cell
induces no dependency edges. -/
theorem unparsable_code_has_no_symbols (A : Analyzer) (code : String)
    (h : A.parse code = none) :
    A.get_defined_vars code = [] ∧ A.get_used_vars code = [] := by
  constructor <;> simp [Analyzer.get_defined_vars, Analyzer.get_used_vars, h]

/-- Witness for C7 at a concrete unparsable input. -/
theorem unparsable_code_has_no_symbols_witness :
    none_parse_analyzer.parse "x ((" = none ∧
      (none_parse_analyzer.get_defined_vars "x ((" = [] ∧
        none_parse_analyzer.get_used_vars "x ((" = []) :=
  ⟨rfl, unparsable_code_has_no_symbols none_parse_analyzer "x ((" rfl⟩

/-- C8: no built-in name and no name beginning with an underscore ever
appears in the used set returned by `get_used_vars`, and no name
beginning with an underscore ever appears in the defined set returned by
`get_defined_vars`. -/
theorem symbol_sets_exclude_builtins_and_private (A : Analyzer) (code : String) :
    (∀ v, v ∈ A.get_used_vars code → v ∉ A.builtins ∧ startsWithUnderscore v = false) ∧
    (∀ v, v ∈ A.get_defined_vars code → startsWithUnderscore v = false) := by
  constructor
  · intro v hv
    unfold Analyzer.get_used_vars at hv
    cases hp : A.parse code with
    | none => rw [hp] at hv; simp at hv
    | some tree =>
        rw [hp] at hv
        simp only [List.mem_map, List.mem_filter, Bool.and_eq_true, decide_eq_true_eq,
          Bool.not_eq_true'] at hv
        obtain ⟨p, ⟨-, ⟨-, hb⟩, hu⟩, hpv⟩ := hv
        exact ⟨hpv ▸ hb, hpv ▸ hu⟩
  · intro v hv
    unfold Analyzer.get_defined_vars at hv
    cases hp : A.parse code with
    | none => rw [hp] at hv; simp at hv
    | some tree =>
        rw [hp] at hv
        simp only [List.mem_filter, Bool.not_eq_true'] at hv
        exact hv.2

/-- Witness for C8 at a concrete input whose used and defined sets are
nonempty. -/
theorem symbol_sets_exclude_builtins_and_private_witness :
    ("x" ∈ demo_analyzer.get_used_vars "y = x" ∧
      ("x" ∉ demo_analyzer.builtins ∧ startsWithUnderscore "x" = false)) ∧
    ("y" ∈ demo_analyzer.get_defined_vars "y = x" ∧ startsWithUnderscore "y" = false) :=
  ⟨⟨by decide, (symbol_sets_exclude_builtins_and_private demo_analyzer "y = x").1 "x" (by decide)⟩,
   ⟨by decide, (symbol_sets_exclude_builtins_and_private demo_analyzer "y = x").2 "y" (by decide)⟩⟩

/-- C9: for every source whose execution raises an uncaught exception
inside the worker, the execute result is status `"error"`, the standard
output captured up to the exception, and `"<ExceptionType>: <message>"`. -/
theorem execute_code_uncaught_exception
    (parse : String → Except (String × Nat) (List PyStmt))
    (run : List PyStmt → RunOutcome) (code : String) (tree : List PyStmt)
    (out ty msg : String)
    (hp : parse code = Except.ok tree)
    (hr : run tree = RunOutcome.raised out ty msg) :
    execute_code parse run code = ⟨"error", out, ty ++ ": " ++ msg⟩ := by
  simp [execute_code, hp, hr]

/-- Witness for C9 at a concrete raising cell. -/
theorem execute_code_uncaught_exception_witness :
    execute_code demo_kernel_parse demo_kernel_run "boom" =
      ⟨"error", "partial output\n", "ValueError" ++ ": " ++ "bad value"⟩ :=
  execute_code_uncaught_exception demo_kernel_parse demo_kernel_run "boom"
    [.exprStmt (.compound [])] "partial output\n" "ValueError" "bad value" rfl rfl

theorem pair_eq_of_fst_eq {l : Cells} (hnd : (l.map Prod.fst).Nodup) {a b : String × String}
    (ha : a ∈ l) (hb : b ∈ l) (h : a.1 = b.1) : a = b :=
  List.inj_on_of_nodup_map hnd ha hb h

theorem find_cell_eq (cells : Cells) (d : String × String)
    (hnd : (cells.map Prod.fst).Nodup) (hd : d ∈ cells) :
    cells.find? (fun c => c.1 == d.1) = some d := by
  cases hfind : cells.find? (fun c => c.1 == d.1) with
  | none =>
      rw [List.find?_eq_none] at hfind
      exact absurd (by simp : ((d.1 == d.1) = true)) (hfind d hd)
  | some e =>
      have he : e ∈ cells := List.mem_of_find?_eq_some hfind
      have heq : e.1 = d.1 := by
        have := List.find?_some hfind
        simpa using this
      rw [pair_eq_of_fst_eq hnd he hd heq]

theorem var_to_cell_mem {A : Analyzer} {cells : Cells} {v x : String}
    (h : A.var_to_cell cells v = some x) :
    ∃ c, c ∈ cells ∧ c.1 = x ∧ v ∈ A.get_defined_vars c.2 := by
  unfold Analyzer.var_to_cell at h
  cases hf : cells.find? (fun c => decide (v ∈ A.get_defined_vars c.2)) with
  | none => rw [hf] at h; simp at h
  | some e =>
      rw [hf] at h
      simp only [Option.map_some', Option.some_inj] at h
      have he : e ∈ cells := List.mem_of_find?_eq_some hf
      have hev : v ∈ A.get_defined_vars e.2 := by
        have := List.find?_some hf
        simpa using this
      exact ⟨e, he, h, hev⟩

theorem var_to_cell_unique {A : Analyzer} {cells : Cells}
    (huniq : ∀ c1 ∈ cells, ∀ c2 ∈ cells, ∀ v ∈ A.get_defined_vars c1.2,
      v ∈ A.get_defined_vars c2.2 → c1.1 = c2.1)
    {v : String} (c : String × String) (hc : c ∈ cells)
    (hv : v ∈ A.get_defined_vars c.2) :
    A.var_to_cell cells v = some c.1 := by
  unfold Analyzer.var_to_cell
  cases hf : cells.find? (fun c => decide (v ∈ A.get_defined_vars c.2)) with
  | none =>
      rw [List.find?_eq_none] at hf
      exact absurd (by simpa using hv) (hf c hc)
  | some e =>
      have he : e ∈ cells := List.mem_of_find?_eq_some hf
      have hev : v ∈ A.get_defined_vars e.2 := by
        have := List.find?_some hf
        simpa using this
      simp only [Option.map_some']
      rw [huniq e he c hc v hev hv]

/-- C6: with every symbol defined by at most one cell, `c ∈ deps(d)`
exactly when some symbol used by `d` is defined by `c ≠ d`; edges only
point at cells; and no cell depends on itself. -/
theorem build_dependency_graph_spec (A : Analyzer) (cells : Cells)
    (hnd : (cells.map Prod.fst).Nodup)
    (huniq : ∀ c1 ∈ cells, ∀ c2 ∈ cells, ∀ v ∈ A.get_defined_vars c1.2,
      v ∈ A.get_defined_vars c2.2 → c1.1 = c2.1) :
    (∀ d ∈ cells, ∀ c ∈ cells,
      (c.1 ∈ A.build_dependency_graph cells d.1 ↔
        c.1 ≠ d.1 ∧ ∃ v, v ∈ A.get_used_vars d.2 ∧ v ∈ A.get_defined_vars c.2)) ∧
    (∀ d x, x ∈ A.build_dependency_graph cells d → x ∈ cells.map Prod.fst) ∧
    (∀ x, x ∉ A.build_dependency_graph cells x) := by
  refine ⟨?_, ?_, ?_⟩
  · intro d hd c hc
    unfold Analyzer.build_dependency_graph
    rw [find_cell_eq cells d hnd hd]
    simp only [List.mem_dedup, List.mem_filterMap]
    constructor
    · rintro ⟨v, hvu, hveq⟩
      cases hvt : A.var_to_cell cells v with
      | none => rw [hvt] at hveq; simp at hveq
      | some dc =>
          rw [hvt] at hveq
          by_cases hne : dc = d.1
          · simp [hne] at hveq
          · simp only [ne_eq, hne, not_false_eq_true, if_true, Option.some_inj] at hveq
            subst hveq
            obtain ⟨e, he, hedc, hvdef⟩ := var_to_cell_mem hvt
            have : e = c := pair_eq_of_fst_eq hnd he hc hedc
            subst this
            exact ⟨hne, v, hvu, hvdef⟩
    · rintro ⟨hne, v, hvu, hvd⟩
      refine ⟨v, hvu, ?_⟩
      rw [var_to_cell_unique huniq c hc hvd]
      simp [hne]
  · intro d x hx
    unfold Analyzer.build_dependency_graph at hx
    cases hf : cells.find? (fun c => c.1 == d) with
    | none => rw [hf] at hx; simp at hx
    | some c =>
        rw [hf] at hx
        simp only [List.mem_dedup, List.mem_filterMap] at hx
        obtain ⟨v, -, hveq⟩ := hx
        cases hvt : A.var_to_cell cells v with
        | none => rw [hvt] at hveq; simp at hveq
        | some dc =>
            rw [hvt] at hveq
            by_cases hne : dc = d
            · simp [hne] at hveq
            · simp only [ne_eq, hne, not_false_eq_true, if_true, Option.some_inj] at hveq
              subst hveq
              obtain ⟨e, he, hedc, -⟩ := var_to_cell_mem hvt
              exact hedc ▸ List.mem_map_of_mem Prod.fst he
  · intro x hx
    unfold Analyzer.build_dependency_graph at hx
    cases hf : cells.find? (fun c => c.1 == x) with
    | none => rw [hf] at hx; simp at hx
    | some c =>
        rw [hf] at hx
        simp only [List.mem_dedup, List.mem_filterMap] at hx
        obtain ⟨v, -, hveq⟩ := hx
        cases hvt : A.var_to_cell cells v with
        | none => rw [hvt] at hveq; simp at hveq
        | some dc =>
            rw [hvt] at hveq
            by_cases hne : dc = x
            · simp [hne] at hveq
            · simp only [ne_eq, hne, not_false_eq_true, if_true, Option.some_inj] at hveq

/-- Witness for C6 on the concrete two-cell collection `demo_cells`. -/
theorem build_dependency_graph_spec_witness :
    ("c1" ∈ demo_analyzer.build_dependency_graph demo_cells "c2" ↔
      "c1" ≠ "c2" ∧ ∃ v, v ∈ demo_analyzer.get_used_vars "y = x" ∧
        v ∈ demo_analyzer.get_defined_vars "x = 10") ∧
    "c2" ∉ demo_analyzer.build_dependency_graph demo_cells "c2" :=
  ⟨(build_dependency_graph_spec demo_analyzer demo_cells (by decide) (by decide)).1
      ("c2", "y = x") (by decide) ("c1", "x = 10") (by decide),
   (build_dependency_graph_spec demo_analyzer demo_cells (by decide) (by decide)).2.2 "c2"⟩

theorem reverse_graph_mem_cells {A : Analyzer} {cells : Cells} {u v : String}
    (h : v ∈ A.reverse_graph cells u) : v ∈ cells.map Prod.fst := by
  unfold Analyzer.reverse_graph at h
  split at h
  · exact (List.mem_filter.mp h).1
  · simp at h

theorem reverse_graph_edge {A : Analyzer} {cells : Cells} {u v : String}
    (h : v ∈ A.reverse_graph cells u) : u ∈ A.build_dependency_graph cells v := by
  unfold Analyzer.reverse_graph at h
  split at h
  · simpa using (List.mem_filter.mp h).2
  · simp at h

theorem reverse_graph_length_le (A : Analyzer) (cells : Cells) (u : String) :
    (A.reverse_graph cells u).length ≤ cells.length := by
  unfold Analyzer.reverse_graph
  split
  · calc ((cells.map Prod.fst).filter _).length
        ≤ (cells.map Prod.fst).length := List.length_filter_le _ _
      _ = cells.length := List.length_map _ _
  · simp

theorem bfs_walk_exits (rev : String → List String) (D Q : List String)
    (hclosed : ∀ d ∈ D, ∀ v ∈ rev d, v ∈ D ∨ v ∈ Q) (y : String) :
    ∀ z, Relation.ReflTransGen (fun a b => b ∈ rev a) z y → z ∈ D →
      y ∈ D ∨ ∃ q ∈ Q, Relation.ReflTransGen (fun a b => b ∈ rev a) q y := by
  intro z hz
  induction hz using Relation.ReflTransGen.head_induction_on with
  | refl => intro hy; exact Or.inl hy
  | head hstep hrest ih =>
      intro ha
      rcases hclosed _ ha _ hstep with hD | hQ
      · exact ih hD
      · exact Or.inr ⟨_, hQ, hrest⟩

theorem bfs_downstream_spec (rev : String → List String) (U : List String)
    (hrevU : ∀ u, ∀ v ∈ rev u, v ∈ U)
    (hrevlen : ∀ u, (rev u).length ≤ U.length) :
    ∀ (fuel : Nat) (queue downstream : List String),
      downstream.Nodup →
      (∀ d ∈ downstream, d ∈ U) →
      (∀ q ∈ queue, q ∈ U) →
      (∀ d ∈ downstream, ∀ v ∈ rev d, v ∈ downstream ∨ v ∈ queue) →
      queue.length + (U.length - downstream.length) * (U.length + 1) < fuel →
      ∀ y, y ∈ bfs_downstream rev fuel queue downstream ↔
        (y ∈ downstream ∨ ∃ q ∈ queue, Relation.ReflTransGen (fun a b => b ∈ rev a) q y) := by
  intro fuel
  induction fuel with
  | zero => intro queue downstream _ _ _ _ hfuel; omega
  | succ fuel ih =>
      intro queue downstream hnodup hdU hqU hclosed hfuel y
      match queue with
      | [] => simp [bfs_downstream]
      | current :: rest =>
          rw [bfs_downstream]
          by_cases hc : current ∈ downstream
          · rw [if_pos hc]
            have hclosed' : ∀ d ∈ downstream, ∀ v ∈ rev d, v ∈ downstream ∨ v ∈ rest := by
              intro d hd v hv
              rcases hclosed d hd v hv with h | h
              · exact Or.inl h
              · rcases List.mem_cons.mp h with h2 | h2
                · exact Or.inl (h2 ▸ hc)
                · exact Or.inr h2
            have hfuel' : rest.length +
                (U.length - downstream.length) * (U.length + 1) < fuel := by
              simp only [List.length_cons] at hfuel
              omega
            rw [ih rest downstream hnodup hdU
              (fun q hq => hqU q (List.mem_cons_of_mem _ hq)) hclosed' hfuel' y]
            constructor
            · rintro (h | ⟨q, hq, hrtg⟩)
              · exact Or.inl h
              · exact Or.inr ⟨q, List.mem_cons_of_mem _ hq, hrtg⟩
            · rintro (h | ⟨q, hq, hrtg⟩)
              · exact Or.inl h
              · rcases List.mem_cons.mp hq with rfl | hq'
                · exact bfs_walk_exits rev downstream rest hclosed' y q hrtg hc
                · exact Or.inr ⟨q, hq', hrtg⟩
          · rw [if_neg hc]
            have hcurU : current ∈ U := hqU current (List.mem_cons_self _ _)
            have hnodup' : (downstream ++ [current]).Nodup := by
              simp [List.nodup_append, hnodup, hc]
            have hdU' : ∀ d ∈ downstream ++ [current], d ∈ U := by
              intro d hd
              rcases List.mem_append.mp hd with h | h
              · exact hdU d h
              · simp only [List.mem_singleton] at h
                exact h ▸ hcurU
            have hqU' : ∀ q ∈ rest ++ rev current, q ∈ U := by
              intro q hq
              rcases List.mem_append.mp hq with h | h
              · exact hqU q (List.mem_cons_of_mem _ h)
              · exact hrevU current q h
            have hclosed' : ∀ d ∈ downstream ++ [current], ∀ v ∈ rev d,
                v ∈ downstream ++ [current] ∨ v ∈ rest ++ rev current := by
              intro d hd v hv
              rcases List.mem_append.mp hd with h | h
              · rcases hclosed d h v hv with h2 | h2
                · exact Or.inl (List.mem_append_left _ h2)
                · rcases List.mem_cons.mp h2 with rfl | h3
                  · exact Or.inl (List.mem_append_right _ (by simp))
                  · exact Or.inr (List.mem_append_left _ h3)
              · simp only [List.mem_singleton] at h
                subst h
                exact Or.inr (List.mem_append_right _ hv)
            have hlen : downstream.length + 1 ≤ U.length := by
              have hsub : downstream ++ [current] ⊆ U := fun z hz => hdU' z hz
              have := (List.subperm_of_subset hnodup' hsub).length_le
              simpa using this
            have hfuel' : (rest ++ rev current).length +
                (U.length - (downstream ++ [current]).length) * (U.length + 1) < fuel := by
              have hrl := hrevlen current
              have hkey : (U.length - downstream.length) * (U.length + 1)
                  = (U.length - (downstream.length + 1)) * (U.length + 1) + (U.length + 1) := by
                have h1 : U.length - downstream.length
                    = (U.length - (downstream.length + 1)) + 1 := by omega
                rw [h1, Nat.add_mul, one_mul]
              rw [hkey] at hfuel
              simp only [List.length_append, List.length_cons, List.length_nil,
                Nat.zero_add] at hfuel ⊢
              omega
            rw [ih (rest ++ rev current) (downstream ++ [current])
              hnodup' hdU' hqU' hclosed' hfuel' y]
            constructor
            · rintro (h | ⟨q, hq, hrtg⟩)
              · rcases List.mem_append.mp h with h2 | h2
                · exact Or.inl h2
                · simp only [List.mem_singleton] at h2
                  subst h2
                  exact Or.inr ⟨_, List.mem_cons_self _ _, Relation.ReflTransGen.refl⟩
              · rcases List.mem_append.mp hq with h2 | h2
                · exact Or.inr ⟨q, List.mem_cons_of_mem _ h2, hrtg⟩
                · exact Or.inr ⟨current, List.mem_cons_self _ _,
                    Relation.ReflTransGen.head h2 hrtg⟩
            · rintro (h | ⟨q, hq, hrtg⟩)
              · exact Or.inl (List.mem_append_left _ h)
              · rcases List.mem_cons.mp hq with rfl | hq'
                · rcases Relation.ReflTransGen.cases_head hrtg with rfl | ⟨b, hb, hrtg'⟩
                  · exact Or.inl (List.mem_append_right _ (by simp))
                  · exact Or.inr ⟨b, List.mem_append_right _ hb, hrtg'⟩
                · exact Or.inr ⟨q, List.mem_append_left _ hq', hrtg⟩

theorem transGen_exists_seq {r : String → String → Prop} {a b : String}
    (h : Relation.TransGen r a b) :
    ∃ (n : Nat) (σ : Nat → String), 0 < n ∧ σ 0 = a ∧ σ n = b ∧
      ∀ k, k < n → r (σ k) (σ (k + 1)) := by
  induction h with
  | single hr =>
      rename_i c
      refine ⟨1, fun k => if k = 0 then a else c, Nat.one_pos, by simp, by simp, ?_⟩
      intro k hk
      have hk0 : k = 0 := by omega
      subst hk0
      simpa using hr
  | tail h hr ih =>
      rename_i b c
      obtain ⟨n, σ, hn, h0, hnb, hstep⟩ := ih
      refine ⟨n + 1, fun k => if k ≤ n then σ k else c, by omega, ?_, ?_, ?_⟩
      · simpa using h0
      · have hx : ¬ (n + 1 ≤ n) := by omega
        simp [hx]
      · intro k hk
        by_cases hkn : k < n
        · have h1 : k ≤ n := by omega
          have h2 : k + 1 ≤ n := by omega
          simpa [h1, h2] using hstep k hkn
        · have hk_eq : k = n := by omega
          subst hk_eq
          have h2 : ¬ (k + 1 ≤ k) := by omega
          simpa [le_refl, h2, hnb] using hr

theorem transGen_revStep_cycle {A : Analyzer} {cells : Cells} {x : String}
    (h : Relation.TransGen (RevStep A cells) x x) :
    HasCycle (A.build_dependency_graph cells) := by
  obtain ⟨n, σ, hn, h0, hnx, hstep⟩ := transGen_exists_seq h
  refine ⟨n, fun k => σ (n - k), hn, ?_, ?_⟩
  · show σ (n - n) = σ (n - 0)
    rw [Nat.sub_self, Nat.sub_zero, h0, hnx]
  · intro k hk
    have hidx : n - (k + 1) < n := by omega
    have hstep' := hstep (n - (k + 1)) hidx
    have harr : n - (k + 1) + 1 = n - k := by omega
    rw [harr] at hstep'
    exact reverse_graph_edge hstep'

/-- Counterexample to C5 as stated: on the cyclic collection `cyc_cells`,
`find_downstream_cells` applied to the changed cell `c1` contains `c1`
itself, so the function does not return "that closure excluding x
itself". -/
theorem find_downstream_contains_changed_cell :
    "c1" ∈ demo_analyzer.find_downstream_cells "c1" cyc_cells := by decide

/-- C5 (amended): `find_downstream_cells x` returns exactly the set of
cells reachable from `x` by one or more reverse-dependency steps (the
breadth-first closure of the reverse dependency graph), so the dirty set
`{x} ∪ downstream` that `on_cell_changed` plans over equals `{x}` ∪ the
transitive dependents of `x`.  The closure contains `x` itself only when
`x` lies on a dependency cycle: when the graph is acyclic, `x` is not in
the result. -/
theorem find_downstream_cells_spec (A : Analyzer) (cells : Cells) (x : String) :
    (∀ y, y ∈ A.find_downstream_cells x cells ↔
      Relation.TransGen (RevStep A cells) x y) ∧
    (∀ y, y ∈ x :: A.find_downstream_cells x cells ↔
      (y = x ∨ Relation.TransGen (RevStep A cells) x y)) ∧
    (Acyclic (A.build_dependency_graph cells) → x ∉ A.find_downstream_cells x cells) := by
  have hrevU : ∀ u, ∀ v ∈ A.reverse_graph cells u, v ∈ cells.map Prod.fst := by
    intro u v hv
    exact reverse_graph_mem_cells hv
  have hrevlen : ∀ u, (A.reverse_graph cells u).length ≤ (cells.map Prod.fst).length := by
    intro u
    rw [List.length_map]
    exact reverse_graph_length_le A cells u
  have hfuel : (A.reverse_graph cells x).length +
      ((cells.map Prod.fst).length - ([] : List String).length) *
        ((cells.map Prod.fst).length + 1) <
      (cells.length + 1) * (cells.length + 1) := by
    have h1 := hrevlen x
    simp only [List.length_nil, Nat.sub_zero, List.length_map] at h1 ⊢
    nlinarith
  have hmain := bfs_downstream_spec (A.reverse_graph cells) (cells.map Prod.fst)
    hrevU hrevlen ((cells.length + 1) * (cells.length + 1)) (A.reverse_graph cells x) []
    List.nodup_nil (by simp) (fun q hq => hrevU x q hq) (by simp) hfuel
  have hiff : ∀ y, y ∈ A.find_downstream_cells x cells ↔
      Relation.TransGen (RevStep A cells) x y := by
    intro y
    rw [Analyzer.find_downstream_cells, hmain y]
    simp only [List.not_mem_nil, false_or]
    rw [Relation.TransGen.head'_iff]
    constructor
    · rintro ⟨q, hq, hrtg⟩
      exact ⟨q, hq, hrtg⟩
    · rintro ⟨q, hq, hrtg⟩
      exact ⟨q, hq, hrtg⟩
  refine ⟨hiff, ?_, ?_⟩
  · intro y
    rw [List.mem_cons, hiff y]
  · intro hacyc hmem
    exact hacyc (transGen_revStep_cycle ((hiff x).mp hmem))

/-- Witness for C5's amended theorem on the concrete collection
`demo_cells`. -/
theorem find_downstream_cells_spec_witness :
    ("c2" ∈ demo_analyzer.find_downstream_cells "c1" demo_cells ↔
      Relation.TransGen (RevStep demo_analyzer demo_cells) "c1" "c2") :=
  (find_downstream_cells_spec demo_analyzer demo_cells "c1").1 "c2"


theorem sort_by_display_perm (key : String → Nat) (l : List String) :
    List.Perm (sort_by_display key l) l :=
  List.mergeSort_perm l _

theorem sort_by_display_sorted (key : String → Nat) (l : List String) :
    (sort_by_display key l).Pairwise (fun a b => key a ≤ key b) := by
  have h : (List.mergeSort l (fun a b => decide (key a ≤ key b))).Pairwise
      (fun a b => decide (key a ≤ key b) = true) := by
    apply List.sorted_mergeSort
    · intro a b c h1 h2
      simp only [decide_eq_true_eq] at h1 h2 ⊢
      omega
    · intro a b
      simp only [Bool.or_eq_true, decide_eq_true_eq]
      omega
  exact h.imp (fun hab => by simpa using hab)

theorem nodup_subset_singleton {l : List String} {a : String} (hnd : l.Nodup)
    (hsub : ∀ x ∈ l, x = a) (hmem : a ∈ l) : l = [a] := by
  cases l with
  | nil => cases hmem
  | cons b t =>
      have hb : b = a := hsub b (List.mem_cons_self _ _)
      subst hb
      have ht : t = [] := by
        by_contra hne
        obtain ⟨x, hx⟩ := List.exists_mem_of_ne_nil t hne
        have hxa : x = b := hsub x (List.mem_cons_of_mem _ hx)
        exact (List.nodup_cons.mp hnd).1 (hxa ▸ hx)
      rw [ht]

theorem length_filter_ne_of_nodup {l : List String} {a : String} (hnd : l.Nodup)
    (ha : a ∈ l) :
    (l.filter (fun d => decide (d ≠ a))).length = l.length - 1 := by
  induction l with
  | nil => cases ha
  | cons b t ih =>
      rcases List.mem_cons.mp ha with rfl | hat
      · have hta : a ∉ t := (List.nodup_cons.mp hnd).1
        have hkeep : t.filter (fun d => decide (d ≠ a)) = t := by
          apply List.filter_eq_self.mpr
          simp only [decide_eq_true_eq, ne_eq]
          intro x hx hxa
          exact hta (hxa ▸ hx)
        rw [List.filter_cons_of_neg (by simp), hkeep]
        simp
      · have hb : b ≠ a := fun h => (List.nodup_cons.mp hnd).1 (h ▸ hat)
        have hlen : 1 ≤ t.length := List.length_pos.mpr (List.ne_nil_of_mem hat)
        have iht := ih (List.nodup_cons.mp hnd).2 hat
        rw [List.filter_cons_of_pos (by simp [hb])]
        simp only [List.length_cons]
        omega

theorem kahn_relax_spec (dsub : String → List String) (key : String → Nat) (current : String) :
    ∀ (L : List String) (ind : String → Int) (q : List String), L.Nodup →
      ((kahn_relax dsub key current L (ind, q)).1 =
        fun k => if k ∈ L ∧ current ∈ dsub k then ind k - 1 else ind k) ∧
      List.Perm (kahn_relax dsub key current L (ind, q)).2
        (q ++ L.filter (fun cid => decide (current ∈ dsub cid ∧ ind cid = 1))) ∧
      (q.Pairwise (fun a b => key a ≤ key b) →
        (kahn_relax dsub key current L (ind, q)).2.Pairwise (fun a b => key a ≤ key b)) := by
  intro L
  induction L with
  | nil =>
      intro ind q _
      refine ⟨?_, by simp [kahn_relax], fun h => by simpa [kahn_relax] using h⟩
      funext k
      simp [kahn_relax]
  | cons cid rest ih =>
      intro ind q hnd
      have hcid : cid ∉ rest := (List.nodup_cons.mp hnd).1
      have hrest : rest.Nodup := (List.nodup_cons.mp hnd).2
      by_cases hcd : current ∈ dsub cid
      · by_cases hd0 : ind cid - 1 = 0
        · -- the scanned cell reaches in-degree zero and is enqueued
          have hstep : kahn_relax dsub key current (cid :: rest) (ind, q) =
              kahn_relax dsub key current rest
                (fun k => if k = cid then ind cid - 1 else ind k,
                  sort_by_display key (q ++ [cid])) := by
            simp [kahn_relax, hcd, hd0]
          obtain ⟨ihf, ihp, ihs⟩ := ih (fun k => if k = cid then ind cid - 1 else ind k)
            (sort_by_display key (q ++ [cid])) hrest
          refine ⟨?_, ?_, ?_⟩
          · rw [hstep, ihf]
            funext k
            by_cases hk : k = cid
            · subst hk
              simp [hcid, hcd]
            · simp [hk, List.mem_cons]
          · rw [hstep]
            have hfc : rest.filter
                  (fun c => decide (current ∈ dsub c ∧ (if c = cid then ind cid - 1 else ind c) = 1))
                = rest.filter (fun c => decide (current ∈ dsub c ∧ ind c = 1)) := by
              apply List.filter_congr
              intro x hx
              have hxc : x ≠ cid := fun h => hcid (h ▸ hx)
              simp [hxc]
            rw [hfc] at ihp
            have h1 : ind cid = 1 := by omega
            have hfcons : (cid :: rest).filter (fun c => decide (current ∈ dsub c ∧ ind c = 1))
                = cid :: rest.filter (fun c => decide (current ∈ dsub c ∧ ind c = 1)) := by
              rw [List.filter_cons_of_pos (by simp [hcd, h1])]
            rw [hfcons]
            have hp2 : List.Perm
                (sort_by_display key (q ++ [cid]) ++
                  rest.filter (fun c => decide (current ∈ dsub c ∧ ind c = 1)))
                ((q ++ [cid]) ++
                  rest.filter (fun c => decide (current ∈ dsub c ∧ ind c = 1))) :=
              (sort_by_display_perm key _).append_right _
            have heq : (q ++ [cid]) ++
                  rest.filter (fun c => decide (current ∈ dsub c ∧ ind c = 1))
                = q ++ (cid :: rest.filter (fun c => decide (current ∈ dsub c ∧ ind c = 1))) := by
              simp [List.append_assoc]
            exact ihp.trans (heq ▸ hp2)
          · intro hq
            rw [hstep]
            exact ihs (sort_by_display_sorted key _)
        · -- decremented but still positive: queue unchanged
          have hstep : kahn_relax dsub key current (cid :: rest) (ind, q) =
              kahn_relax dsub key current rest
                (fun k => if k = cid then ind cid - 1 else ind k, q) := by
            simp [kahn_relax, hcd, hd0]
          obtain ⟨ihf, ihp, ihs⟩ := ih (fun k => if k = cid then ind cid - 1 else ind k) q hrest
          refine ⟨?_, ?_, ?_⟩
          · rw [hstep, ihf]
            funext k
            by_cases hk : k = cid
            · subst hk
              simp [hcid, hcd]
            · simp [hk, List.mem_cons]
          · rw [hstep]
            have hfc : rest.filter
                  (fun c => decide (current ∈ dsub c ∧ (if c = cid then ind cid - 1 else ind c) = 1))
                = rest.filter (fun c => decide (current ∈ dsub c ∧ ind c = 1)) := by
              apply List.filter_congr
              intro x hx
              have hxc : x ≠ cid := fun h => hcid (h ▸ hx)
              simp [hxc]
            rw [hfc] at ihp
            have h1 : ind cid ≠ 1 := by omega
            have hfcons : (cid :: rest).filter (fun c => decide (current ∈ dsub c ∧ ind c = 1))
                = rest.filter (fun c => decide (current ∈ dsub c ∧ ind c = 1)) := by
              rw [List.filter_cons_of_neg (by simp [h1])]
            rw [hfcons]
            exact ihp
          · intro hq
            rw [hstep]
            exact ihs hq
      · -- the scanned cell does not depend on current: state unchanged
        have hstep : kahn_relax dsub key current (cid :: rest) (ind, q) =
            kahn_relax dsub key current rest (ind, q) := by
          simp [kahn_relax, hcd]
        obtain ⟨ihf, ihp, ihs⟩ := ih ind q hrest
        refine ⟨?_, ?_, ?_⟩
        · rw [hstep, ihf]
          funext k
          by_cases hk : k = cid
          · subst hk
            simp [hcid, hcd]
          · simp [hk, List.mem_cons]
        · rw [hstep]
          have hfcons : (cid :: rest).filter (fun c => decide (current ∈ dsub c ∧ ind c = 1))
              = rest.filter (fun c => decide (current ∈ dsub c ∧ ind c = 1)) := by
            rw [List.filter_cons_of_neg (by simp [hcd])]
          rw [hfcons]
          exact ihp
        · intro hq
          rw [hstep]
          exact ihs hq

theorem get_append_cons_self (l : List String) (a : String) (t : List String) :
    (l ++ a :: t).get ⟨l.length, by simp⟩ = a := by
  induction l with
  | nil => rfl
  | cons b l ih => simpa using ih

theorem kahn_loop_spec (dsub : String → List String) (key : String → Nat)
    (cell_ids : List String) (hids : cell_ids.Nodup)
    (hdnd : ∀ c, (dsub c).Nodup)
    (hdsub : ∀ c, ∀ d ∈ dsub c, d ∈ cell_ids)
    (hsrc : ∀ S : List String, (∀ s ∈ S, s ∈ cell_ids) → S ≠ [] →
      ∃ src ∈ S, ∀ d ∈ dsub src, d ∉ S) :
    ∀ (fuel : Nat) (in_degree : String → Int) (queue result : List String),
      result.Nodup →
      (∀ r ∈ result, r ∈ cell_ids) →
      queue.Nodup →
      (∀ q ∈ queue, q ∈ cell_ids ∧ q ∉ result) →
      (∀ c ∈ cell_ids, in_degree c =
        (((dsub c).filter (fun d => decide (d ∉ result))).length : Int)) →
      (∀ c ∈ cell_ids, (c ∈ queue ↔ (c ∉ result ∧ ∀ d ∈ dsub c, d ∈ result))) →
      queue.Pairwise (fun a b => key a ≤ key b) →
      (∀ i (hi : i < result.length), ∀ d ∈ dsub (result.get ⟨i, hi⟩), d ∈ result.take i) →
      cell_ids.length < fuel + result.length →
      (∃ t, kahn_loop dsub key cell_ids fuel in_degree queue result = result ++ t) ∧
      (kahn_loop dsub key cell_ids fuel in_degree queue result).Nodup ∧
      (∀ c, c ∈ kahn_loop dsub key cell_ids fuel in_degree queue result ↔ c ∈ cell_ids) ∧
      (∀ i (hi : i < (kahn_loop dsub key cell_ids fuel in_degree queue result).length),
        ∀ d ∈ dsub ((kahn_loop dsub key cell_ids fuel in_degree queue result).get ⟨i, hi⟩),
          d ∈ (kahn_loop dsub key cell_ids fuel in_degree queue result).take i) ∧
      (∀ i (hi : i < (kahn_loop dsub key cell_ids fuel in_degree queue result).length),
        result.length ≤ i → ∀ c ∈ cell_ids,
        c ∉ (kahn_loop dsub key cell_ids fuel in_degree queue result).take i →
        (∀ d ∈ dsub c, d ∈ (kahn_loop dsub key cell_ids fuel in_degree queue result).take i) →
        key ((kahn_loop dsub key cell_ids fuel in_degree queue result).get ⟨i, hi⟩) ≤ key c) := by
  intro fuel
  induction fuel with
  | zero =>
      intro in_degree queue result hresnd hres _ _ _ _ _ _ hfuel
      have hle : result.length ≤ cell_ids.length :=
        (List.subperm_of_subset hresnd (fun x hx => hres x hx)).length_le
      omega
  | succ fuel ih =>
      intro in_degree queue result hresnd hres hqnd hqmem hindeg hqiff hqsort hord hfuel
      match queue, hqnd, hqmem, hqiff, hqsort with
      | [], _, _, hqiff, _ =>
          -- queue exhausted: by acyclicity every cell has been emitted
          have hcomplete : ∀ c ∈ cell_ids, c ∈ result := by
            by_contra hcon
            push_neg at hcon
            obtain ⟨c0, hc0, hc0r⟩ := hcon
            have hSne : cell_ids.filter (fun c => decide (c ∉ result)) ≠ [] := by
              intro hnil
              have : c0 ∈ cell_ids.filter (fun c => decide (c ∉ result)) :=
                List.mem_filter.mpr ⟨hc0, by simpa using hc0r⟩
              rw [hnil] at this
              exact List.not_mem_nil _ this
            obtain ⟨src, hsrcS, hsdeps⟩ := hsrc (cell_ids.filter (fun c => decide (c ∉ result)))
              (fun s hs => (List.mem_filter.mp hs).1) hSne
            have hsrc_cells : src ∈ cell_ids := (List.mem_filter.mp hsrcS).1
            have hsrc_not : src ∉ result := by
              have := (List.mem_filter.mp hsrcS).2
              simpa using this
            have hsrc_ready : ∀ d ∈ dsub src, d ∈ result := by
              intro d hd
              have hdc : d ∈ cell_ids := hdsub src d hd
              have := hsdeps d hd
              by_contra hdr
              exact this (List.mem_filter.mpr ⟨hdc, by simpa using hdr⟩)
            have : src ∈ ([] : List String) :=
              (hqiff src hsrc_cells).mpr ⟨hsrc_not, hsrc_ready⟩
            exact List.not_mem_nil _ this
          refine ⟨⟨[], by simp [kahn_loop]⟩, ?_, ?_, ?_, ?_⟩
          · simpa [kahn_loop] using hresnd
          · intro c
            simp only [kahn_loop]
            exact ⟨fun h => hres c h, fun h => hcomplete c h⟩
          · intro i hi d hd
            simp only [kahn_loop] at hi hd ⊢
            exact hord i hi d hd
          · intro i hi hge
            simp only [kahn_loop] at hi
            omega
      | current :: rest, hqnd, hqmem, hqiff, hqsort =>
          have hcur : current ∈ cell_ids ∧ current ∉ result :=
            hqmem current (List.mem_cons_self _ _)
          have hready : ∀ d ∈ dsub current, d ∈ result :=
            ((hqiff current hcur.1).mp (List.mem_cons_self _ _)).2
          have hcur_rest : current ∉ rest := (List.nodup_cons.mp hqnd).1
          have hrestnd : rest.Nodup := (List.nodup_cons.mp hqnd).2
          obtain ⟨hf, hp, hs⟩ := kahn_relax_spec dsub key current cell_ids in_degree rest hids
          -- every already-emitted cell has all dependencies emitted
          have hres_ready : ∀ x ∈ result, ∀ d ∈ dsub x, d ∈ result := by
            intro x hx d hd
            obtain ⟨⟨i, hi⟩, hgy⟩ := List.mem_iff_get.mp hx
            have := hord i hi d (by rw [hgy]; exact hd)
            exact List.take_subset _ _ this
          -- a cell of the result has in-degree zero
          have hres_zero : ∀ x ∈ result, x ∈ cell_ids → in_degree x = 0 := by
            intro x hx hxc
            rw [hindeg x hxc]
            have hempty : (dsub x).filter (fun d => decide (d ∉ result)) = [] := by
              rw [List.filter_eq_nil_iff]
              intro d hd
              simp only [decide_eq_true_eq, not_not]
              exact hres_ready x hx d hd
            rw [hempty]; simp
          -- the enqueued batch
          have hF_spec : ∀ x ∈ cell_ids.filter
              (fun c => decide (current ∈ dsub c ∧ in_degree c = 1)),
              x ∈ cell_ids ∧ current ∈ dsub x ∧ in_degree x = 1 := by
            intro x hx
            have h1 := (List.mem_filter.mp hx).1
            have h2 := (List.mem_filter.mp hx).2
            simp only [decide_eq_true_eq] at h2
            exact ⟨h1, h2.1, h2.2⟩
          have hF_not_result : ∀ x ∈ cell_ids.filter
              (fun c => decide (current ∈ dsub c ∧ in_degree c = 1)), x ∉ result := by
            intro x hx hxr
            obtain ⟨h1, -, h3⟩ := hF_spec x hx
            rw [hres_zero x hxr h1] at h3
            omega
          have hF_ne_current : ∀ x ∈ cell_ids.filter
              (fun c => decide (current ∈ dsub c ∧ in_degree c = 1)), x ≠ current := by
            intro x hx hxc
            obtain ⟨-, h2, -⟩ := hF_spec x hx
            rw [hxc] at h2
            exact hcur.2 (hready current h2)
          have hF_not_rest : ∀ x ∈ cell_ids.filter
              (fun c => decide (current ∈ dsub c ∧ in_degree c = 1)), x ∉ rest := by
            intro x hx hxr
            obtain ⟨h1, -, h3⟩ := hF_spec x hx
            have hxq : x ∈ current :: rest := List.mem_cons_of_mem _ hxr
            have hxready := (hqiff x h1).mp hxq
            have : in_degree x = 0 := by
              rw [hindeg x h1]
              have hempty : (dsub x).filter (fun d => decide (d ∉ result)) = [] := by
                rw [List.filter_eq_nil_iff]
                intro d hd
                simp only [decide_eq_true_eq, not_not]
                exact hxready.2 d hd
              rw [hempty]; simp
            omega
          -- invariants for the recursive call
          have hresnd' : (result ++ [current]).Nodup := by
            simp [List.nodup_append, hresnd, hcur.2]
          have hres' : ∀ r ∈ result ++ [current], r ∈ cell_ids := by
            intro r hr
            rcases List.mem_append.mp hr with h | h
            · exact hres r h
            · simp only [List.mem_singleton] at h
              exact h ▸ hcur.1
          have hqnd' : (kahn_relax dsub key current cell_ids (in_degree, rest)).2.Nodup := by
            rw [hp.nodup_iff]
            refine List.Nodup.append hrestnd (hids.filter _) ?_
            intro x hx1 hx2
            exact hF_not_rest x hx2 hx1
          have hqmem' : ∀ q ∈ (kahn_relax dsub key current cell_ids (in_degree, rest)).2,
              q ∈ cell_ids ∧ q ∉ result ++ [current] := by
            intro q hq
            rcases List.mem_append.mp (hp.mem_iff.mp hq) with h | h
            · obtain ⟨h1, h2⟩ := hqmem q (List.mem_cons_of_mem _ h)
              refine ⟨h1, ?_⟩
              intro hmem
              rcases List.mem_append.mp hmem with h3 | h3
              · exact h2 h3
              · simp only [List.mem_singleton] at h3
                exact hcur_rest (h3 ▸ h)
            · obtain ⟨h1, -, -⟩ := hF_spec q h
              refine ⟨h1, ?_⟩
              intro hmem
              rcases List.mem_append.mp hmem with h3 | h3
              · exact hF_not_result q h h3
              · simp only [List.mem_singleton] at h3
                exact hF_ne_current q h h3
          have hindeg' : ∀ c ∈ cell_ids,
              (kahn_relax dsub key current cell_ids (in_degree, rest)).1 c =
              (((dsub c).filter (fun d => decide (d ∉ result ++ [current]))).length : Int) := by
            intro c hc
            rw [hf]
            have hsplit : (dsub c).filter (fun d => decide (d ∉ result ++ [current])) =
                ((dsub c).filter (fun d => decide (d ∉ result))).filter
                  (fun d => decide (d ≠ current)) := by
              rw [List.filter_filter]
              apply List.filter_congr
              intro x hx
              by_cases hxr : x ∈ result <;> by_cases hxc : x = current <;>
                simp [hxr, hxc]
            by_cases hcd : current ∈ dsub c
            · simp only [hc, hcd, and_self, if_true]
              have hmem : current ∈ (dsub c).filter (fun d => decide (d ∉ result)) :=
                List.mem_filter.mpr ⟨hcd, by simpa using hcur.2⟩
              have hnd' : ((dsub c).filter (fun d => decide (d ∉ result))).Nodup :=
                (hdnd c).filter _
              have hlen := length_filter_ne_of_nodup hnd' hmem
              have hpos : 1 ≤ ((dsub c).filter (fun d => decide (d ∉ result))).length :=
                List.length_pos.mpr (List.ne_nil_of_mem hmem)
              rw [hsplit, hlen, hindeg c hc]
              omega
            · have hcd' : ¬ (c ∈ cell_ids ∧ current ∈ dsub c) := fun h => hcd h.2
              simp only [hcd', if_false]
              rw [hindeg c hc]
              congr 1
              rw [hsplit]
              have : ((dsub c).filter (fun d => decide (d ∉ result))).filter
                  (fun d => decide (d ≠ current)) =
                  (dsub c).filter (fun d => decide (d ∉ result)) := by
                apply List.filter_eq_self.mpr
                intro x hx
                have hxd : x ∈ dsub c := List.mem_of_mem_filter hx
                simp only [decide_eq_true_eq]
                exact fun hxc => hcd (hxc ▸ hxd)
              rw [this]
          have hqiff' : ∀ c ∈ cell_ids,
              (c ∈ (kahn_relax dsub key current cell_ids (in_degree, rest)).2 ↔
                (c ∉ result ++ [current] ∧ ∀ d ∈ dsub c, d ∈ result ++ [current])) := by
            intro c hc
            rw [hp.mem_iff, List.mem_append]
            constructor
            · rintro (h | h)
              · obtain ⟨h1, h2⟩ := hqmem c (List.mem_cons_of_mem _ h)
                have hcready := (hqiff c hc).mp (List.mem_cons_of_mem _ h)
                refine ⟨?_, ?_⟩
                · intro hmem
                  rcases List.mem_append.mp hmem with h3 | h3
                  · exact h2 h3
                  · simp only [List.mem_singleton] at h3
                    exact hcur_rest (h3 ▸ h)
                · intro d hd
                  exact List.mem_append_left _ (hcready.2 d hd)
              · obtain ⟨h1, h2, h3⟩ := hF_spec c h
                refine ⟨?_, ?_⟩
                · intro hmem
                  rcases List.mem_append.mp hmem with h4 | h4
                  · exact hF_not_result c h h4
                  · simp only [List.mem_singleton] at h4
                    exact hF_ne_current c h h4
                · intro d hd
                  by_cases hdr : d ∈ result
                  · exact List.mem_append_left _ hdr
                  · have hdl : d ∈ (dsub c).filter (fun x => decide (x ∉ result)) :=
                      List.mem_filter.mpr ⟨hd, by simpa using hdr⟩
                    have hnd' : ((dsub c).filter (fun x => decide (x ∉ result))).Nodup :=
                      (hdnd c).filter _
                    have hone : ((dsub c).filter (fun x => decide (x ∉ result))).length = 1 := by
                      have := hindeg c hc
                      rw [h3] at this
                      omega
                    obtain ⟨e, he⟩ := List.length_eq_one.mp hone
                    have hcl : current ∈ (dsub c).filter (fun x => decide (x ∉ result)) :=
                      List.mem_filter.mpr ⟨h2, by simpa using hcur.2⟩
                    rw [he] at hdl hcl
                    simp only [List.mem_singleton] at hdl hcl
                    rw [hdl, ← hcl]
                    exact List.mem_append_right _ (by simp)
            · rintro ⟨hnotin, hsub'⟩
              have hc_ne : c ≠ current := by
                intro h
                exact hnotin (List.mem_append_right _ (by simp [h]))
              have hc_not : c ∉ result := fun h => hnotin (List.mem_append_left _ h)
              by_cases hcd : current ∈ dsub c
              · right
                apply List.mem_filter.mpr
                refine ⟨hc, ?_⟩
                have hsingle : (dsub c).filter (fun x => decide (x ∉ result)) = [current] := by
                  apply nodup_subset_singleton ((hdnd c).filter _)
                  · intro x hx
                    have hx1 : x ∈ dsub c := List.mem_of_mem_filter hx
                    have hx2 : x ∉ result := by
                      have := (List.mem_filter.mp hx).2
                      simpa using this
                    rcases List.mem_append.mp (hsub' x hx1) with h | h
                    · exact absurd h hx2
                    · simpa using h
                  · exact List.mem_filter.mpr ⟨hcd, by simpa using hcur.2⟩
                have hdeg : in_degree c = 1 := by
                  rw [hindeg c hc, hsingle]
                  rfl
                simp [hcd, hdeg]
              · left
                have hcready : ∀ d ∈ dsub c, d ∈ result := by
                  intro d hd
                  rcases List.mem_append.mp (hsub' d hd) with h | h
                  · exact h
                  · simp only [List.mem_singleton] at h
                    exact absurd (h ▸ hd) hcd
                have : c ∈ current :: rest := (hqiff c hc).mpr ⟨hc_not, hcready⟩
                rcases List.mem_cons.mp this with h | h
                · exact absurd h hc_ne
                · exact h
          have hqsort' :
              (kahn_relax dsub key current cell_ids (in_degree, rest)).2.Pairwise
                (fun a b => key a ≤ key b) :=
            hs (List.Pairwise.of_cons hqsort)
          have hord' : ∀ i (hi : i < (result ++ [current]).length),
              ∀ d ∈ dsub ((result ++ [current]).get ⟨i, hi⟩),
                d ∈ (result ++ [current]).take i := by
            intro i hi d hd
            rcases Nat.lt_or_ge i result.length with hic | hic
            · have hget : (result ++ [current]).get ⟨i, hi⟩ = result.get ⟨i, hic⟩ := by
                rw [List.get_append i hic]
              rw [hget] at hd
              have := hord i hic d hd
              rw [List.take_append_of_le_length (by omega)]
              exact this
            · have hieq : i = result.length := by
                simp only [List.length_append, List.length_singleton] at hi
                omega
              subst hieq
              have hget : (result ++ [current]).get ⟨result.length, hi⟩ = current :=
                get_append_cons_self result current []
              rw [hget] at hd
              rw [List.take_append_of_le_length (le_refl _), List.take_length]
              exact hready d hd
          have hfuel' : cell_ids.length < fuel + (result ++ [current]).length := by
            simp only [List.length_append, List.length_singleton]
            omega
          obtain ⟨⟨t, hteq⟩, hnodup2, hmem2, hord2, htie2⟩ := ih
            (kahn_relax dsub key current cell_ids (in_degree, rest)).1
            (kahn_relax dsub key current cell_ids (in_degree, rest)).2
            (result ++ [current]) hresnd' hres' hqnd' hqmem' hindeg' hqiff' hqsort' hord' hfuel'
          have hloop_eq : kahn_loop dsub key cell_ids (fuel + 1) in_degree (current :: rest) result
              = kahn_loop dsub key cell_ids fuel
                  (kahn_relax dsub key current cell_ids (in_degree, rest)).1
                  (kahn_relax dsub key current cell_ids (in_degree, rest)).2
                  (result ++ [current]) := by
            simp [kahn_loop]
          rw [hloop_eq]
          refine ⟨⟨current :: t, by rw [hteq]; simp⟩, hnodup2, hmem2, hord2, ?_⟩
          intro i hi hge c hc hctake hcdeps
          rcases Nat.lt_or_ge i (result.length + 1) with hic | hic
          · -- this is exactly the step that emitted `current`
            have hieq : i = result.length := by omega
            subst hieq
            have hfinal : kahn_loop dsub key cell_ids fuel
                (kahn_relax dsub key current cell_ids (in_degree, rest)).1
                (kahn_relax dsub key current cell_ids (in_degree, rest)).2
                (result ++ [current]) = result ++ current :: t := by
              rw [hteq]
              simp
            have htake : (kahn_loop dsub key cell_ids fuel
                (kahn_relax dsub key current cell_ids (in_degree, rest)).1
                (kahn_relax dsub key current cell_ids (in_degree, rest)).2
                (result ++ [current])).take result.length = result := by
              rw [hfinal]
              exact List.take_left _ _
            have hget : (kahn_loop dsub key cell_ids fuel
                (kahn_relax dsub key current cell_ids (in_degree, rest)).1
                (kahn_relax dsub key current cell_ids (in_degree, rest)).2
                (result ++ [current])).get ⟨result.length, hi⟩ = current := by
              rw [List.get_of_eq hfinal]
              exact get_append_cons_self result current t
            rw [hget]
            rw [htake] at hctake hcdeps
            have : c ∈ current :: rest := (hqiff c hc).mpr ⟨hctake, hcdeps⟩
            rcases List.mem_cons.mp this with h | h
            · exact le_of_eq (by rw [h])
            · exact (List.pairwise_cons.mp hqsort).1 c h
          · exact htie2 i hi (by simpa using hic) c hc hctake hcdeps


theorem build_dependency_graph_nodup (A : Analyzer) (cells : Cells) (c : String) :
    (A.build_dependency_graph cells c).Nodup := by
  unfold Analyzer.build_dependency_graph
  split
  · exact List.nodup_nil
  · exact List.nodup_dedup _

theorem acyclic_source (g : String → List String) (hacyc : Acyclic g)
    (dsub : String → List String) (hd : ∀ c, ∀ x ∈ dsub c, x ∈ g c) :
    ∀ S : List String, S ≠ [] → ∃ src ∈ S, ∀ d ∈ dsub src, d ∉ S := by
  intro S hS
  by_contra hcon
  push_neg at hcon
  have hcon2 : ∀ s : {x // x ∈ S.toFinset}, ∃ d, d ∈ dsub s.1 ∧ d ∈ S.toFinset := by
    rintro ⟨s, hs⟩
    obtain ⟨d, h1, h2⟩ := hcon s (List.mem_toFinset.mp hs)
    exact ⟨d, h1, List.mem_toFinset.mpr h2⟩
  choose fc hfc1 hfc2 using hcon2
  obtain ⟨s0, hs0⟩ := List.exists_mem_of_ne_nil S hS
  set gS : {x // x ∈ S.toFinset} → {x // x ∈ S.toFinset} :=
    fun s => ⟨fc s, hfc2 s⟩ with hgS
  set σ : Nat → {x // x ∈ S.toFinset} :=
    fun n => gS^[n] ⟨s0, List.mem_toFinset.mpr hs0⟩ with hσ
  have hcard : Fintype.card {x // x ∈ S.toFinset} < Fintype.card (Fin (S.length + 1)) := by
    rw [Fintype.card_coe, Fintype.card_fin]
    have := S.toFinset_card_le
    omega
  obtain ⟨i, j, hij, hsig⟩ :=
    Fintype.exists_ne_map_eq_of_card_lt (fun i : Fin (S.length + 1) => σ i.1) hcard
  have key : ∀ a b : Nat, a < b → σ a = σ b → False := by
    intro a b hab heq
    apply hacyc
    refine ⟨b - a, fun k => (σ (a + k)).1, by omega, ?_, ?_⟩
    · show (σ (a + (b - a))).1 = (σ (a + 0)).1
      have h1 : a + (b - a) = b := by omega
      rw [h1, Nat.add_zero, heq]
    · intro k hk
      show (σ (a + (k + 1))).1 ∈ g ((σ (a + k)).1)
      have hiter : σ (a + k + 1) = gS (σ (a + k)) := by
        rw [hσ]
        exact Function.iterate_succ_apply' gS (a + k) _
      have hadd : a + (k + 1) = a + k + 1 := by omega
      rw [hadd, hiter]
      exact hd _ _ (hfc1 (σ (a + k)))
  rcases Nat.lt_or_ge i.1 j.1 with h | h
  · exact key i.1 j.1 h hsig
  · rcases Nat.lt_or_ge j.1 i.1 with h2 | h2
    · exact key j.1 i.1 h2 hsig.symm
    · exact hij (Fin.ext (by omega))

/-- C4: on an acyclic cell collection, `topological_sort` over any subset
of the cell ids returns each cell of the subset exactly once, every cell
comes after all of its dependencies that lie within the subset, and at
every position the emitted cell has the lowest display index among the
cells of the subset that are ready (all their in-subset dependencies
already emitted) and not yet emitted. -/
theorem topological_sort_spec (A : Analyzer) (cells : Cells) (cell_ids : List String)
    (hids : cell_ids.Nodup)
    (hsub : ∀ c ∈ cell_ids, c ∈ cells.map Prod.fst)
    (hacyc : Acyclic (A.build_dependency_graph cells)) :
    (∀ c, c ∈ A.topological_sort cell_ids cells ↔ c ∈ cell_ids) ∧
    (A.topological_sort cell_ids cells).Nodup ∧
    (∀ l1 c l2, A.topological_sort cell_ids cells = l1 ++ c :: l2 →
      ∀ d ∈ A.build_dependency_graph cells c, d ∈ cell_ids → d ∈ l1) ∧
    (∀ i (hi : i < (A.topological_sort cell_ids cells).length),
      ∀ c ∈ cell_ids, c ∉ (A.topological_sort cell_ids cells).take i →
      (∀ d ∈ A.build_dependency_graph cells c, d ∈ cell_ids →
        d ∈ (A.topological_sort cell_ids cells).take i) →
      (cells.map Prod.fst).indexOf ((A.topological_sort cell_ids cells).get ⟨i, hi⟩) ≤
        (cells.map Prod.fst).indexOf c) := by
  by_cases hempty : cell_ids.isEmpty
  · have hnil : cell_ids = [] := List.isEmpty_iff.mp hempty
    have hres : A.topological_sort cell_ids cells = [] := by
      unfold Analyzer.topological_sort
      rw [if_pos hempty]
    subst hnil
    refine ⟨?_, ?_, ?_, ?_⟩
    · intro c
      rw [hres]
    · rw [hres]
      exact List.nodup_nil
    · intro l1 c l2 heq
      rw [hres] at heq
      exact absurd heq (by simp)
    · intro i hi
      rw [hres] at hi
      simp at hi
  · set cell_order := cells.map Prod.fst with horder
    set key : String → Nat := fun x =>
      if x ∈ cell_order then cell_order.indexOf x else cell_order.length with hkey
    set dsub : String → List String := fun cid =>
      if cid ∈ cell_ids then
        (A.build_dependency_graph cells cid).filter (fun x => decide (x ∈ cell_ids))
      else [] with hdsub_def
    have hres_eq : A.topological_sort cell_ids cells =
        kahn_loop dsub key cell_ids (cell_ids.length + 1)
          (fun cid => ((dsub cid).length : Int))
          (sort_by_display key
            (cell_ids.filter (fun cid => decide (((dsub cid).length : Int) = 0)))) [] := by
      unfold Analyzer.topological_sort
      rw [if_neg hempty]
    have hdnd : ∀ c, (dsub c).Nodup := by
      intro c
      rw [hdsub_def]
      dsimp only
      split
      · exact (build_dependency_graph_nodup A cells c).filter _
      · exact List.nodup_nil
    have hdsub1 : ∀ c, ∀ d ∈ dsub c, d ∈ cell_ids := by
      intro c d hd
      rw [hdsub_def] at hd
      dsimp only at hd
      split at hd
      · have := (List.mem_filter.mp hd).2
        simpa using this
      · cases hd
    have hdg : ∀ c, ∀ x ∈ dsub c, x ∈ A.build_dependency_graph cells c := by
      intro c x hx
      rw [hdsub_def] at hx
      dsimp only at hx
      split at hx
      · exact List.mem_of_mem_filter hx
      · cases hx
    have hdmem : ∀ c ∈ cell_ids, ∀ d,
        (d ∈ dsub c ↔ (d ∈ A.build_dependency_graph cells c ∧ d ∈ cell_ids)) := by
      intro c hc d
      rw [hdsub_def]
      dsimp only
      rw [if_pos hc, List.mem_filter]
      simp
    have hsrc : ∀ S : List String, (∀ s ∈ S, s ∈ cell_ids) → S ≠ [] →
        ∃ src ∈ S, ∀ d ∈ dsub src, d ∉ S :=
      fun S _ hne => acyclic_source (A.build_dependency_graph cells) hacyc dsub hdg S hne
    have hqmem0 : ∀ q ∈ sort_by_display key
        (cell_ids.filter (fun cid => decide (((dsub cid).length : Int) = 0))),
        q ∈ cell_ids ∧ q ∉ ([] : List String) := by
      intro q hq
      have hq2 := (sort_by_display_perm key _).mem_iff.mp hq
      exact ⟨(List.mem_filter.mp hq2).1, by simp⟩
    have hindeg0 : ∀ c ∈ cell_ids, ((dsub c).length : Int) =
        (((dsub c).filter (fun d => decide (d ∉ ([] : List String)))).length : Int) := by
      intro c _
      congr 2
      have hfs : (dsub c).filter (fun d => decide (d ∉ ([] : List String))) = dsub c := by
        apply List.filter_eq_self.mpr
        intro x _
        simp
      rw [hfs]
    have hqiff0 : ∀ c ∈ cell_ids,
        (c ∈ sort_by_display key
          (cell_ids.filter (fun cid => decide (((dsub cid).length : Int) = 0))) ↔
          (c ∉ ([] : List String) ∧ ∀ d ∈ dsub c, d ∈ ([] : List String))) := by
      intro c hc
      rw [(sort_by_display_perm key _).mem_iff, List.mem_filter]
      simp only [decide_eq_true_eq, List.not_mem_nil, not_false_eq_true, true_and]
      constructor
      · rintro ⟨-, hlen⟩
        have hz : (dsub c).length = 0 := by omega
        have hnil := List.length_eq_zero.mp hz
        intro d hd
        rw [hnil] at hd
        cases hd
      · intro hall
        refine ⟨hc, ?_⟩
        have hnil : dsub c = [] := by
          rw [List.eq_nil_iff_forall_not_mem]
          intro d hd
          exact hall d hd
        rw [hnil]
        rfl
    have hmain := kahn_loop_spec dsub key cell_ids hids hdnd hdsub1 hsrc
      (cell_ids.length + 1) (fun cid => ((dsub cid).length : Int))
      (sort_by_display key
        (cell_ids.filter (fun cid => decide (((dsub cid).length : Int) = 0)))) []
      List.nodup_nil (by simp)
      ((sort_by_display_perm key _).nodup_iff.mpr (hids.filter _))
      hqmem0 hindeg0 hqiff0 (sort_by_display_sorted key _) (by simp) (by simp)
    obtain ⟨-, hnodup2, hmem2, hord2, htie2⟩ := hmain
    rw [← hres_eq] at hnodup2 hmem2 hord2 htie2
    refine ⟨hmem2, hnodup2, ?_, ?_⟩
    · intro l1 c l2 heq d hd hdc
      have hc_res : c ∈ A.topological_sort cell_ids cells := by
        rw [heq]
        exact List.mem_append_right _ (List.mem_cons_self _ _)
      have hc_ids : c ∈ cell_ids := (hmem2 c).mp hc_res
      have hi : l1.length < (A.topological_sort cell_ids cells).length := by
        rw [heq]
        simp
      have hget : (A.topological_sort cell_ids cells).get ⟨l1.length, hi⟩ = c := by
        rw [List.get_of_eq heq]
        exact get_append_cons_self l1 c l2
      have hdd : d ∈ dsub c := (hdmem c hc_ids d).mpr ⟨hd, hdc⟩
      have := hord2 l1.length hi d (by rw [hget]; exact hdd)
      rw [heq, List.take_left] at this
      exact this
    · intro i hi c hc hct hcd
      have hkey_le := htie2 i hi (by simp) c hc hct ?hdeps
      case hdeps =>
        intro d hd
        exact hcd d ((hdmem c hc d).mp hd).1 ((hdmem c hc d).mp hd).2
      have hget_mem : (A.topological_sort cell_ids cells).get ⟨i, hi⟩ ∈ cell_ids :=
        (hmem2 _).mp (List.get_mem _ _ _)
      have h1 : key ((A.topological_sort cell_ids cells).get ⟨i, hi⟩) =
          cell_order.indexOf ((A.topological_sort cell_ids cells).get ⟨i, hi⟩) := by
        rw [hkey]
        dsimp only
        rw [if_pos (hsub _ hget_mem)]
      have h2 : key c = cell_order.indexOf c := by
        rw [hkey]
        dsimp only
        rw [if_pos (hsub c hc)]
      rw [h1, h2] at hkey_le
      exact hkey_le

theorem indep_graph_empty (s : String) :
    demo_analyzer.build_dependency_graph indep_cells s = [] := by
  unfold Analyzer.build_dependency_graph
  cases hf : indep_cells.find? (fun c => c.1 == s) with
  | none => rfl
  | some c =>
      have hc : c ∈ indep_cells := List.mem_of_find?_eq_some hf
      dsimp only
      have hused : demo_analyzer.get_used_vars c.2 = [] := by
        rcases List.mem_cons.mp hc with rfl | hc2
        · rfl
        · simp only [indep_cells, List.mem_singleton] at hc2
          rw [hc2]
          rfl
      rw [hused]
      rfl

theorem indep_cells_acyclic :
    Acyclic (demo_analyzer.build_dependency_graph indep_cells) := by
  rintro ⟨n, σ, hn, -, hstep⟩
  have h := hstep 0 hn
  rw [indep_graph_empty (σ 0)] at h
  exact List.not_mem_nil _ h

/-- Witness for C4 on a concrete acyclic collection. -/
theorem topological_sort_spec_witness :
    ("c1" ∈ demo_analyzer.topological_sort ["c1", "c2"] indep_cells ↔ "c1" ∈ ["c1", "c2"]) ∧
    ("c2" ∈ demo_analyzer.topological_sort ["c1", "c2"] indep_cells ↔ "c2" ∈ ["c1", "c2"]) :=
  ⟨(topological_sort_spec demo_analyzer indep_cells ["c1", "c2"] (by decide) (by decide)
      indep_cells_acyclic).1 "c1",
   (topological_sort_spec demo_analyzer indep_cells ["c1", "c2"] (by decide) (by decide)
      indep_cells_acyclic).1 "c2"⟩

theorem erase_insertIdx_fresh :
    ∀ (l : List String) (p : Nat) (a : String), a ∉ l → p ≤ l.length →
      (l.insertIdx p a).erase a = l := by
  intro l
  induction l with
  | nil =>
      intro p a _ hp
      have hp0 : p = 0 := by simpa using hp
      subst hp0
      rw [List.insertIdx_zero]
      exact List.erase_cons_head a []
  | cons b t ih =>
      intro p a ha hp
      match p with
      | 0 =>
          rw [List.insertIdx_zero]
          exact List.erase_cons_head a (b :: t)
      | p + 1 =>
          rw [List.insertIdx_succ_cons]
          have hba : a ≠ b := fun h => ha (by simp [h])
          rw [List.erase_cons_tail (by simpa using fun h => hba h.symm)]
          have ht : a ∉ t := fun h => ha (List.mem_cons_of_mem _ h)
          have hp' : p ≤ t.length := by simpa using hp
          rw [ih p a ht hp']

/-- Counterexample to C10 as stated: calling `add_cell` with an id that
already exists and then `delete_cell` with that id does not restore the
engine state — the original cell is gone from the map afterwards. -/
theorem add_then_delete_not_restoring :
    ((single_state.add_cell "a" "" none).delete_cell "a").1.cells "a" = none ∧
    single_state.cells "a" = some ⟨"a", "x = 10", "", "", "idle"⟩ := by
  constructor <;> rfl

/-- C10 (amended): when the id passed to (or generated by) `add_cell` is
fresh — absent from both the cell map and the display order, as a
generated uuid is — `delete_cell` with the id `add_cell` returned yields
`true` and restores the cell map and the display-order sequence exactly
to their values before the `add_cell` call. -/
theorem add_then_delete_restores (s : EngineState) (id code : String) (pos : Option Nat)
    (h1 : s.cells id = none) (h2 : id ∉ s.cell_order) :
    ((s.add_cell id code pos).delete_cell id).2 = true ∧
    (((s.add_cell id code pos).delete_cell id).1).cell_order = s.cell_order ∧
    ∀ k, (((s.add_cell id code pos).delete_cell id).1).cells k = s.cells k := by
  have hcells : (s.add_cell id code pos).cells =
      fun k => if k = id then some ⟨id, code, "", "", "idle"⟩ else s.cells k := by
    unfold EngineState.add_cell
    match pos with
    | some p =>
        dsimp only
        split <;> rfl
    | none => rfl
  have horder : ((s.add_cell id code pos).cell_order).erase id = s.cell_order := by
    unfold EngineState.add_cell
    match pos with
    | some p =>
        dsimp only
        split
        · exact erase_insertIdx_fresh s.cell_order p id h2 (by assumption)
        · rw [List.erase_append_right _ h2]
          simp
    | none =>
        rw [List.erase_append_right _ h2]
        simp
  have hdel : (s.add_cell id code pos).delete_cell id =
      (⟨fun k => if k = id then none else (s.add_cell id code pos).cells k,
        ((s.add_cell id code pos).cell_order).erase id⟩, true) := by
    unfold EngineState.delete_cell
    rw [hcells]
    simp
  rw [hdel]
  refine ⟨rfl, horder, ?_⟩
  intro k
  by_cases hk : k = id
  · subst hk
    simp [h1]
  · simp only [hk, if_false]
    rw [hcells]
    simp [hk]

/-- Witness for C10's amended theorem at a concrete fresh id. -/
theorem add_then_delete_restores_witness :
    ((single_state.add_cell "b" "y = 1" none).delete_cell "b").2 = true ∧
    (((single_state.add_cell "b" "y = 1" none).delete_cell "b").1).cell_order =
      single_state.cell_order ∧
    ∀ k, (((single_state.add_cell "b" "y = 1" none).delete_cell "b").1).cells k =
      single_state.cells k :=
  add_then_delete_restores single_state "b" "y = 1" none rfl (by decide)

theorem update_stamp_state (s : EngineState) (cell_id new_code msg : String) (cd : CellData)
    (hcd : s.cells cell_id = some cd) :
    ((s.update_cell_code cell_id new_code).stamp_error cell_id msg).cell_order =
      s.cell_order ∧
    (∀ k, k ≠ cell_id →
      ((s.update_cell_code cell_id new_code).stamp_error cell_id msg).cells k = s.cells k) ∧
    ((s.update_cell_code cell_id new_code).stamp_error cell_id msg).cells cell_id =
      some ⟨cd.id, new_code, cd.output, msg, "error"⟩ := by
  have hupd : s.update_cell_code cell_id new_code =
      ⟨fun k => if k = cell_id then some ⟨cd.id, new_code, cd.output, cd.error, cd.status⟩
        else s.cells k, s.cell_order⟩ := by
    unfold EngineState.update_cell_code
    rw [hcd]
  rw [hupd]
  unfold EngineState.stamp_error
  simp only [if_pos rfl]
  refine ⟨rfl, ?_, ?_⟩
  · intro k hk
    simp [hk]
  · simp

/-- C3: whenever `on_cell_changed` returns a duplicate-definition or
circular-dependency error, no cell is executed and only the edited cell's
state changes — it keeps its id and output, its code becomes the new
code, its status becomes `"error"` and its error field the message — while
the code, output, error and status of every other cell, and the display
order, are exactly as they were before the call. -/
theorem on_cell_changed_error_frame (A : Analyzer) (s : EngineState)
    (cell_id new_code msg : String) (cd : CellData)
    (hcd : s.cells cell_id = some cd)
    (herr : (s.on_cell_changed A cell_id new_code).2 = ChangeResult.err msg) :
    (s.on_cell_changed A cell_id new_code).1.cell_order = s.cell_order ∧
    (∀ k, k ≠ cell_id → (s.on_cell_changed A cell_id new_code).1.cells k = s.cells k) ∧
    (s.on_cell_changed A cell_id new_code).1.cells cell_id =
      some ⟨cd.id, new_code, cd.output, msg, "error"⟩ := by
  simp only [EngineState.on_cell_changed] at herr ⊢
  cases hdup : A.find_duplicate_definitions
      ((s.update_cell_code cell_id new_code).get_cells_as_tuples) with
  | cons d ds =>
      rw [hdup] at herr
      have hmsg : ChangeResult.err
          (format_duplicate_error (s.update_cell_code cell_id new_code) (d :: ds)) =
          ChangeResult.err msg := herr
      injection hmsg with hmsg
      dsimp only
      rw [← hmsg]
      exact update_stamp_state s cell_id new_code _ cd hcd
  | nil =>
      rw [hdup] at herr
      dsimp only
      cases hcyc : A.find_cycle
          ((s.update_cell_code cell_id new_code).get_cells_as_tuples) with
      | some cyc =>
          rw [hcyc] at herr
          have hmsg : ChangeResult.err
              (format_cycle_error (s.update_cell_code cell_id new_code) cyc) =
              ChangeResult.err msg := herr
          injection hmsg with hmsg
          dsimp only
          rw [← hmsg]
          exact update_stamp_state s cell_id new_code _ cd hcd
      | none =>
          rw [hcyc] at herr
          have himp : ChangeResult.plan
              (A.topological_sort
                (cell_id :: A.find_downstream_cells cell_id
                  ((s.update_cell_code cell_id new_code).get_cells_as_tuples))
                ((s.update_cell_code cell_id new_code).get_cells_as_tuples)) =
              ChangeResult.err msg := herr
          exact ChangeResult.noConfusion himp

/-- Witness for C3 at a concrete erroring edit (a duplicate definition of
`x`). -/
theorem on_cell_changed_error_frame_witness :
    ((dup_state.on_cell_changed demo_analyzer "c2" "x = 20").2 =
      ChangeResult.err dup_message) ∧
    ((dup_state.on_cell_changed demo_analyzer "c2" "x = 20").1.cell_order =
      dup_state.cell_order ∧
    (∀ k, k ≠ "c2" →
      (dup_state.on_cell_changed demo_analyzer "c2" "x = 20").1.cells k =
        dup_state.cells k) ∧
    (dup_state.on_cell_changed demo_analyzer "c2" "x = 20").1.cells "c2" =
      some ⟨"c2", "x = 20", "", dup_message, "error"⟩) :=
  ⟨by decide,
   on_cell_changed_error_frame demo_analyzer dup_state "c2" "x = 20" dup_message
     ⟨"c2", "y = x", "", "", "idle"⟩ rfl (by decide)⟩

/-- C2 is violated by the code at this concrete cyclic input: the error
is returned and contains "Circular dependency", but the chain is joined
with the mojibake byte sequence `"â†’"` (the UTF-8 bytes of "→"
mis-decoded), not the arrow "→" the spec prescribes. -/
theorem on_cell_changed_cycle_mojibake :
    (cyc_state.on_cell_changed demo_analyzer "c1" "a = b").2 =
      ChangeResult.err
        ("Circular dependency detected: cell 1 â†’ cell 2 â†’ cell 1") ∧
    ("Circular dependency detected: cell 1 â†’ cell 2 â†’ cell 1" ≠
      "Circular dependency detected: cell 1 → cell 2 → cell 1") := by
  constructor
  · decide
  · decide

theorem two_mem_le_length {l : List String} {a b : String}
    (ha : a ∈ l) (hb : b ∈ l) (hne : a ≠ b) : 2 ≤ l.length := by
  cases l with
  | nil => cases ha
  | cons x t =>
      cases t with
      | nil =>
          simp only [List.mem_singleton] at ha hb
          exact absurd (ha.trans hb.symm) hne
      | cons y t2 =>
          simp only [List.length_cons]
          omega

theorem tuples_fst_mem_order (s : EngineState) :
    ∀ c ∈ s.get_cells_as_tuples, c.1 ∈ s.cell_order := by
  intro c hc
  unfold EngineState.get_cells_as_tuples at hc
  obtain ⟨cid, hcid, hmap⟩ := List.mem_filterMap.mp hc
  obtain ⟨cd, -, heq⟩ := Option.map_eq_some'.mp hmap
  cases heq
  exact hcid

theorem dup_pair_mem (A : Analyzer) (cells : Cells) {v : String} {c1 c2 : String × String}
    (h1 : c1 ∈ cells) (h2 : c2 ∈ cells) (h3 : c1.1 ≠ c2.1)
    (h4 : v ∈ A.get_defined_vars c1.2) (h5 : v ∈ A.get_defined_vars c2.2) :
    (v, duplicate_definers A cells v) ∈ A.find_duplicate_definitions cells := by
  unfold Analyzer.find_duplicate_definitions
  apply List.mem_filter.mpr
  constructor
  · apply List.mem_map.mpr
    refine ⟨v, ?_, rfl⟩
    apply List.mem_dedup.mpr
    apply List.mem_flatten.mpr
    exact ⟨A.get_defined_vars c1.2, List.mem_map.mpr ⟨c1, h1, rfl⟩, h4⟩
  · have m1 : c1.1 ∈ duplicate_definers A cells v :=
      List.mem_map.mpr ⟨c1, List.mem_filter.mpr ⟨h1, by simpa using h4⟩, rfl⟩
    have m2 : c2.1 ∈ duplicate_definers A cells v :=
      List.mem_map.mpr ⟨c2, List.mem_filter.mpr ⟨h2, by simpa using h5⟩, rfl⟩
    simpa using two_mem_le_length m1 m2 h3

/-- C1: when two or more cells of the (post-edit) collection define the
same symbol, `on_cell_changed` returns the duplicate-definition error (no
plan), and for every symbol `v` with two or more definers the message is
built from a line of the form
`Variable 'v' is defined in multiple cells: cell i, cell j, …` that lists
every offending cell by its 1-indexed display position. -/
theorem on_cell_changed_duplicate_error (A : Analyzer) (s : EngineState)
    (cell_id new_code : String)
    (hdup : ∃ v c1 c2,
      c1 ∈ (s.update_cell_code cell_id new_code).get_cells_as_tuples ∧
      c2 ∈ (s.update_cell_code cell_id new_code).get_cells_as_tuples ∧
      c1.1 ≠ c2.1 ∧ v ∈ A.get_defined_vars c1.2 ∧ v ∈ A.get_defined_vars c2.2) :
    ((s.on_cell_changed A cell_id new_code).2 = ChangeResult.err
      (format_duplicate_error (s.update_cell_code cell_id new_code)
        (A.find_duplicate_definitions
          ((s.update_cell_code cell_id new_code).get_cells_as_tuples)))) ∧
    (∀ v c1 c2,
      c1 ∈ (s.update_cell_code cell_id new_code).get_cells_as_tuples →
      c2 ∈ (s.update_cell_code cell_id new_code).get_cells_as_tuples →
      c1.1 ≠ c2.1 → v ∈ A.get_defined_vars c1.2 → v ∈ A.get_defined_vars c2.2 →
      ((v, duplicate_definers A
          ((s.update_cell_code cell_id new_code).get_cells_as_tuples) v) ∈
        A.find_duplicate_definitions
          ((s.update_cell_code cell_id new_code).get_cells_as_tuples) ∧
      format_duplicate_line (s.update_cell_code cell_id new_code) v
          (duplicate_definers A
            ((s.update_cell_code cell_id new_code).get_cells_as_tuples) v) =
        "Variable \x27" ++ v ++ "\x27 is defined in multiple cells: " ++
          String.intercalate ", "
            ((duplicate_definers A
                ((s.update_cell_code cell_id new_code).get_cells_as_tuples) v).map
              (fun cid => "cell " ++
                toString ((s.update_cell_code cell_id new_code).cell_order.indexOf cid + 1))) ∧
      (∀ c ∈ (s.update_cell_code cell_id new_code).get_cells_as_tuples,
        v ∈ A.get_defined_vars c.2 →
          c.1 ∈ duplicate_definers A
            ((s.update_cell_code cell_id new_code).get_cells_as_tuples) v))) := by
  obtain ⟨v0, c1, c2, h1, h2, h3, h4, h5⟩ := hdup
  have hne : A.find_duplicate_definitions
      ((s.update_cell_code cell_id new_code).get_cells_as_tuples) ≠ [] :=
    List.ne_nil_of_mem (dup_pair_mem A _ h1 h2 h3 h4 h5)
  constructor
  · simp only [EngineState.on_cell_changed]
    cases hdup_eq : A.find_duplicate_definitions
        ((s.update_cell_code cell_id new_code).get_cells_as_tuples) with
    | nil => exact absurd hdup_eq hne
    | cons d ds => rfl
  · intro v c1' c2' h1' h2' h3' h4' h5'
    refine ⟨dup_pair_mem A _ h1' h2' h3' h4' h5', ?_, ?_⟩
    · unfold format_duplicate_line
      congr 1
      congr 1
      apply List.map_congr_left
      intro cid hcid
      have hmem : cid ∈ (s.update_cell_code cell_id new_code).cell_order := by
        obtain ⟨c, hc, hfst⟩ := List.mem_map.mp hcid
        rw [← hfst]
        exact tuples_fst_mem_order _ c (List.mem_of_mem_filter hc)
      unfold cell_position_label
      rw [if_pos hmem]
    · intro c hc hvc
      unfold duplicate_definers
      exact List.mem_map.mpr ⟨c, List.mem_filter.mpr ⟨hc, by simpa using hvc⟩, rfl⟩

/-- Witness for C1 at the concrete duplicate-producing edit. -/
theorem on_cell_changed_duplicate_error_witness :
    (dup_state.on_cell_changed demo_analyzer "c2" "x = 20").2 = ChangeResult.err
      (format_duplicate_error (dup_state.update_cell_code "c2" "x = 20")
        (demo_analyzer.find_duplicate_definitions
          ((dup_state.update_cell_code "c2" "x = 20").get_cells_as_tuples))) :=
  (on_cell_changed_duplicate_error demo_analyzer dup_state "c2" "x = 20"
    ⟨"x", ("c1", "x = 10"), ("c2", "x = 20"), by decide, by decide, by decide, by decide,
      by decide⟩).1

end ReactiveNotebook
